import Mathlib

/-!
Verification development for the badvpn repository.

Embedded components:
* `PPPQ` — `src/flow/PacketPassPriorityQueue.c` (full implementation present),
  modelled as an explicit state machine with an event trace.
* `BPendingModel` — the pending-job queue of `src/base/BPending.h`
  (implementation absent from the tree; semantics taken from the header's
  documented contract).
* `DataProtoModel` — the declarations of `src/client/DataProto.h`.
* `FPA` — the FragmentProto assembler of `src/client/FragmentProtoAssembler.h`
  (implementation absent; modelled from the specification).
-/

namespace PPPQ

/-- One byte of packet data. -/
abbrev Byte := Nat

/-- A node of the queued heap. In the C source this information lives on the
flow object (`flow->priority`, `flow->queued.data`, `flow->queued.data_len`,
`flow->queued.heap_node`); a flow's node is in the heap exactly when
`flow->is_queued`. -/
structure QueuedEntry where
  flowId : Nat
  priority : Int
  data : List Byte
  dataLen : Int
  deriving Repr, DecidableEq

/-- State of a `PacketPassPriorityQueue` (`src/flow/PacketPassPriorityQueue.h`
fields used by `PacketPassPriorityQueue.c`). -/
structure State where
  queuedHeap : List QueuedEntry
  sendingFlow : Option Nat
  sendingLen : Int
  scheduleJobSet : Bool
  freeing : Bool
  useCancel : Bool
  deriving Repr, DecidableEq

/-- I/O events the queue performs on its collaborators. -/
inductive Event where
  /-- `PacketPassInterface_Sender_Send(m->output, data, data_len)` for the
  packet of the given flow. -/
  | send (flowId : Nat) (data : List Byte) (dataLen : Int)
  /-- `PacketPassInterface_Sender_Cancel(m->output)`. -/
  | cancel
  /-- `PacketPassInterface_Done(&flow->input)`. -/
  | done (flowId : Nat)
  deriving Repr, DecidableEq

/-- `int_comparator` from `src/flow/PacketPassPriorityQueue.c`. -/
def int_comparator (prio1 prio2 : Int) : Int :=
  if prio1 < prio2 then -1 else if prio1 > prio2 then 1 else 0

/-- Modelled from the spec: `BHeap` (`structure/BHeap.h`, not in the tree) is a
heap whose first element is minimal under the comparator; the heap is modelled
as the list of inserted nodes and `GetFirst` scans for a comparator-minimal
entry ("the scheduling key is the flow's static priority (smaller = higher)").
`heapPick` keeps the comparator-smaller of two entries. -/
def heapPick (best x : QueuedEntry) : QueuedEntry :=
  if int_comparator x.priority best.priority = -1 then x else best

/-- Modelled from the spec: `BHeap_GetFirst`, see `heapPick`. -/
def heapGetFirst : List QueuedEntry → Option QueuedEntry
  | [] => none
  | e :: es => some (es.foldl heapPick e)

/-- Modelled from the spec: `BHeap_Insert` adds a node to the heap. -/
def heapInsert (es : List QueuedEntry) (e : QueuedEntry) : List QueuedEntry :=
  es ++ [e]

/-- Modelled from the spec: `BHeap_Remove` removes the given flow's node. -/
def heapRemove (es : List QueuedEntry) (fid : Nat) : List QueuedEntry :=
  es.eraseP (fun e => e.flowId == fid)

/-- `flow->is_queued`: the flow's node is in the heap. -/
def isQueued (s : State) (fid : Nat) : Bool :=
  s.queuedHeap.any (fun e => e.flowId == fid)

/-- `schedule` (`PacketPassPriorityQueue.c:41-60`): take the first queued flow,
remove it from the heap and start sending its packet. -/
def schedule (s : State) : State × List Event :=
  match heapGetFirst s.queuedHeap with
  | none => (s, [])
  | some q =>
      ({ s with
          queuedHeap := heapRemove s.queuedHeap q.flowId
          sendingFlow := some q.flowId
          sendingLen := q.dataLen },
       [Event.send q.flowId q.data q.dataLen])

/-- `schedule_job_handler` (`PacketPassPriorityQueue.c:62-71`). Running a
pending job first puts it in not-set state (`BPending.h`), then the handler
schedules if the heap is nonempty. -/
def runScheduleJob (s : State) : State × List Event :=
  let s0 := { s with scheduleJobSet := false }
  if (heapGetFirst s0.queuedHeap).isSome then schedule s0 else (s0, [])

/-- `input_handler_send` (`PacketPassPriorityQueue.c:73-91`): queue the flow's
packet; if no flow is sending and the schedule job is not set, schedule. -/
def input_handler_send (s : State) (fid : Nat) (prio : Int)
    (data : List Byte) (dataLen : Int) : State × List Event :=
  let s1 := { s with queuedHeap := heapInsert s.queuedHeap ⟨fid, prio, data, dataLen⟩ }
  if s1.sendingFlow = none ∧ s1.scheduleJobSet = false then
    schedule s1
  else
    (s1, [])

/-- `output_handler_done` (`PacketPassPriorityQueue.c:93-121`): clear the
sending flow, set the schedule job, report Done on the flow's input. -/
def output_handler_done (s : State) : State × List Event :=
  match s.sendingFlow with
  | none => (s, [])
  | some fid =>
      ({ s with sendingFlow := none, scheduleJobSet := true }, [Event.done fid])

/-- `PacketPassPriorityQueueFlow_Release` (`PacketPassPriorityQueue.c:241-259`):
cancel the current packet downstream, clear the sending flow, set the schedule
job. -/
def PacketPassPriorityQueueFlow_Release (s : State) : State × List Event :=
  ({ s with sendingFlow := none, scheduleJobSet := true }, [Event.cancel])

/-- `PacketPassPriorityQueueFlow_Free` (`PacketPassPriorityQueue.c:201-223`):
clear the sending flow if it is this flow, remove the flow's heap node if
queued. -/
def PacketPassPriorityQueueFlow_Free (s : State) (fid : Nat) : State :=
  let s1 := if s.sendingFlow = some fid then { s with sendingFlow := none } else s
  if isQueued s1 fid then
    { s1 with queuedHeap := heapRemove s1.queuedHeap fid }
  else
    s1

/-- `PacketPassPriorityQueue_EnableCancel` (`PacketPassPriorityQueue.c:162-170`). -/
def PacketPassPriorityQueue_EnableCancel (s : State) : State :=
  { s with useCancel := true }

/-- `PacketPassPriorityQueue_PrepareFree` (`PacketPassPriorityQueue.c:172-177`). -/
def PacketPassPriorityQueue_PrepareFree (s : State) : State :=
  { s with freeing := true }

/-- `PacketPassPriorityQueue_Init` (`PacketPassPriorityQueue.c:123-149`). -/
def initState : State :=
  { queuedHeap := []
    sendingFlow := none
    sendingLen := 0
    scheduleJobSet := false
    freeing := false
    useCancel := false }

/-- Example state used by witnesses: flow 1 sending, flow 2 queued,
cancel enabled. -/
def exStateRelease : State :=
  ⟨[⟨2, 7, [9], 1⟩], some 1, 1, false, false, true⟩

/-- Example state used by witnesses: flows 1 (priority 5) and 2 (priority 3)
queued, output idle. -/
def exStateTwoQueued : State :=
  ⟨[⟨1, 5, [0], 1⟩, ⟨2, 3, [7], 1⟩], none, 0, false, false, false⟩

/-- Example state used by witnesses: flows 1 and 2 queued, flow 3 sending. -/
def exStateFreeTarget : State :=
  ⟨[⟨1, 5, [4], 1⟩, ⟨2, 3, [7], 1⟩], some 3, 2, false, false, false⟩

/-- The operations the environment can invoke on the queue. -/
inductive Op where
  | submit (fid : Nat) (prio : Int) (data : List Byte) (dataLen : Int)
  | outputDone
  | runJob
  | release (fid : Nat)
  | flowFree (fid : Nat)
  | enableCancel
  | prepareFree
  deriving Repr, DecidableEq

/-- Number of heap nodes belonging to flow `fid`. -/
def countFid (es : List QueuedEntry) (fid : Nat) : Nat :=
  (es.filter (fun e => e.flowId == fid)).length

/-- Number of packets of flow `fid` that are queued or in flight. -/
def inFlight (s : State) (fid : Nat) : Nat :=
  countFid s.queuedHeap fid + (if s.sendingFlow = some fid then 1 else 0)

/-- A queue system together with the ghost per-flow contract state:
`outstanding fid` is true while flow `fid` has submitted a packet whose
`Done` (on the flow's input) has not yet been delivered and the flow has not
been freed.  The `PacketPassInterface` contract obliges a producer not to
issue a second `send` before `done`. -/
structure Sys where
  st : State
  outstanding : Nat → Bool

/-- One environment-driven step of the queue.  The hypotheses of each
constructor are exactly the obligations the environment (flows, downstream
output, pending-group) must respect; the internal `ASSERT`s of
`PacketPassPriorityQueue.c` are *not* assumed where they are internal
consistency facts — they are proved as invariants. -/
inductive Step : Sys → Op → Sys → List Event → Prop where
  /-- A flow submits a packet (`input_handler_send`).  Contract: the queue is
  not freeing, and the flow has no outstanding packet. -/
  | submit {g : Sys} {fid : Nat} {prio : Int} {data : List Byte} {dataLen : Int} :
      g.st.freeing = false →
      g.outstanding fid = false →
      Step g (.submit fid prio data dataLen)
        ⟨(input_handler_send g.st fid prio data dataLen).1,
         fun f => if f = fid then true else g.outstanding f⟩
        (input_handler_send g.st fid prio data dataLen).2
  /-- The downstream output reports completion of the in-flight packet
  (`output_handler_done`).  Contract: there is an in-flight packet. -/
  | outputDone {g : Sys} {fid : Nat} :
      g.st.freeing = false →
      g.st.sendingFlow = some fid →
      Step g .outputDone
        ⟨(output_handler_done g.st).1,
         fun f => if f = fid then false else g.outstanding f⟩
        (output_handler_done g.st).2
  /-- The pending group runs the schedule job (`schedule_job_handler`).
  Contract: only a set job runs. -/
  | runJob {g : Sys} :
      g.st.freeing = false →
      g.st.scheduleJobSet = true →
      Step g .runJob ⟨(runScheduleJob g.st).1, g.outstanding⟩ (runScheduleJob g.st).2
  /-- `PacketPassPriorityQueueFlow_Release` on the sending flow.  Contract:
  cancel is enabled, the flow is the sending flow, not freeing. -/
  | release {g : Sys} {fid : Nat} :
      g.st.useCancel = true →
      g.st.sendingFlow = some fid →
      g.st.freeing = false →
      Step g (.release fid)
        ⟨(PacketPassPriorityQueueFlow_Release g.st).1, g.outstanding⟩
        (PacketPassPriorityQueueFlow_Release g.st).2
  /-- `PacketPassPriorityQueueFlow_Free`.  Contract: unless the queue is
  freeing, the flow must not be the sending flow. -/
  | flowFree {g : Sys} {fid : Nat} :
      (g.st.freeing = false → g.st.sendingFlow ≠ some fid) →
      Step g (.flowFree fid)
        ⟨PacketPassPriorityQueueFlow_Free g.st fid,
         fun f => if f = fid then false else g.outstanding f⟩
        []
  /-- `PacketPassPriorityQueue_EnableCancel`. -/
  | enableCancel {g : Sys} :
      g.st.useCancel = false →
      Step g .enableCancel ⟨PacketPassPriorityQueue_EnableCancel g.st, g.outstanding⟩ []
  /-- `PacketPassPriorityQueue_PrepareFree`. -/
  | prepareFree {g : Sys} :
      Step g .prepareFree ⟨PacketPassPriorityQueue_PrepareFree g.st, g.outstanding⟩ []

/-- The initial system: queue as left by `PacketPassPriorityQueue_Init`, no
flow with an outstanding packet. -/
def initSys : Sys := ⟨initState, fun _ => false⟩

/-- States reachable from `Init` by contract-respecting steps. -/
inductive Reachable : Sys → Prop where
  | init : Reachable initSys
  | step {g : Sys} {op : Op} {g' : Sys} {evs : List Event} :
      Reachable g → Step g op g' evs → Reachable g'

/-- The inductive invariant of the queue system. -/
def Inv (g : Sys) : Prop :=
  (∀ fid, inFlight g.st fid ≤ 1) ∧
  (∀ fid, g.outstanding fid = false →
      isQueued g.st fid = false ∧ g.st.sendingFlow ≠ some fid) ∧
  (g.st.scheduleJobSet = true → g.st.sendingFlow = none)

end PPPQ

namespace BPendingModel

/-- Modelled from the spec: `BPending.c` is absent from the tree; the
semantics below are the documented contract of `src/base/BPending.h`.
A `Queue` is the pending-job list of a `BPendingGroup`, topmost job first;
a job is in set state exactly when it is in the list. -/
abbrev Queue := List Nat

/-- Modelled from the spec: `BPending_Set` — "Enables the job, pushing it to
the top of the job list.  If the object was already in set state, the job is
removed from its current position in the list before being pushed." -/
def set (q : Queue) (h : Nat) : Queue := h :: q.erase h

/-- Modelled from the spec: `BPending_Unset` — "Disables the job, removing
it from the job list.  If the object was not in set state, nothing is
done." -/
def unset (q : Queue) (h : Nat) : Queue := q.erase h

/-- Modelled from the spec: `BPending_IsSet` — "Checks if the job is in set
state." -/
def isSet (q : Queue) (h : Nat) : Bool := q.contains h

/-- Modelled from the spec: `BPendingGroup_ExecuteJob` — "Executes the top
job on the job list.  The job is removed from the list and enters not set
state before being executed."  The handler may set further jobs;
`effects j` lists the jobs handler `j` sets, in order. -/
def executeJob (effects : Nat → List Nat) (q : Queue) : Queue :=
  match q with
  | [] => []
  | h :: rest => (effects h).foldl set rest

/-- Repeatedly execute the top job, recording the order in which handlers
run; `fuel` bounds the number of executions (handlers may set jobs forever). -/
def drain (effects : Nat → List Nat) : Nat → Queue → List Nat
  | 0, _ => []
  | _ + 1, [] => []
  | fuel + 1, h :: rest => h :: drain effects fuel ((effects h).foldl set rest)

/-- Handler effects for the concrete scenario of the spec: during `h3`'s
callback, `h4` is set. -/
def scenarioEffects : Nat → List Nat := fun j => if j = 3 then [4] else []

end BPendingModel

namespace DataProtoModel

/-- One C struct field: its name and its type, as written in the source. -/
structure CField where
  name : String
  type : String
  deriving Repr, DecidableEq

/-- The fields of `DataProtoDest` as declared in `src/client/DataProto.h`
lines 58-82, in declaration order (including the two `#ifndef NDEBUG`
debug-build fields). -/
def dataProtoDestFields : List CField :=
  [⟨"reactor", "BReactor *"⟩,
   ⟨"dest_id", "peerid_t"⟩,
   ⟨"mtu", "int"⟩,
   ⟨"frame_mtu", "int"⟩,
   ⟨"queue", "PacketPassFairQueue"⟩,
   ⟨"monitor", "PacketPassInactivityMonitor"⟩,
   ⟨"notifier", "PacketPassNotifier"⟩,
   ⟨"ka_source", "DataProtoKeepaliveSource"⟩,
   ⟨"ka_blocker", "PacketRecvBlocker"⟩,
   ⟨"ka_buffer", "SinglePacketBuffer"⟩,
   ⟨"ka_qflow", "PacketPassFairQueueFlow"⟩,
   ⟨"receive_timer", "BTimer"⟩,
   ⟨"up", "int"⟩,
   ⟨"handler", "DataProtoDest_handler"⟩,
   ⟨"user", "void *"⟩,
   ⟨"relay_flows_list", "LinkedList2"⟩,
   ⟨"keepalive_job", "BPending"⟩,
   ⟨"flows_counter", "DebugCounter"⟩,
   ⟨"d_obj", "DebugObject"⟩,
   ⟨"d_output", "PacketPassInterface *"⟩,
   ⟨"d_freeing", "int"⟩]

/-- The fields of `DataProtoLocalSource` as declared in
`src/client/DataProto.h` lines 88-101, in declaration order (including the
`#ifndef NDEBUG` debug-build field). -/
def dataProtoLocalSourceFields : List CField :=
  [⟨"frame_mtu", "int"⟩,
   ⟨"source_id", "peerid_t"⟩,
   ⟨"dest_id", "peerid_t"⟩,
   ⟨"ainput", "BufferWriter"⟩,
   ⟨"buffer", "PacketBuffer"⟩,
   ⟨"connector", "PacketPassConnector"⟩,
   ⟨"dp", "DataProtoDest *"⟩,
   ⟨"dp_qflow", "PacketPassFairQueueFlow"⟩,
   ⟨"d_obj", "DebugObject"⟩,
   ⟨"d_dp_released", "int"⟩]

/-- The documented contract of `DataProtoDest_Received`
(`src/client/DataProto.h:179-190`): "Must not be in freeing state.  Must not
be called from output Send calls.  May call the up state handler.  May
invoke output I/O." -/
structure ReceivedContract where
  mustNotBeInFreeingState : Bool
  mustNotBeCalledFromOutputSendCalls : Bool
  mayCallUpStateHandler : Bool
  mayInvokeOutputIo : Bool
  deriving Repr, DecidableEq

/-- The contract stated by the doc comment of `DataProtoDest_Received`. -/
def dataProtoDest_Received_contract : ReceivedContract :=
  ⟨true, true, true, true⟩

end DataProtoModel

namespace FPA

/-- A FragmentProto chunk as carried to the assembler
(`protocol/fragmentproto.h`, spec §3: {frame_id, chunk_start, chunk_len,
is_last, data}); `chunk_len` is `data.length`. -/
structure Chunk where
  frameId : Nat
  chunkStart : Nat
  data : List Nat
  isLast : Bool
  deriving Repr, DecidableEq

/-- Modelled from the spec: the FragmentProto *Disassembler* (absent from the
tree) splits a frame into chunks "with `off` monotonically increasing,
`off + len ≤ |F|`, and `last?` true exactly on the final chunk" (spec §4.E);
the carrier chunk capacity is `m1 + 1` bytes (kept positive by
construction). -/
def chunksOfAux (fid m1 : Nat) : Nat → List Nat → List Chunk
  | off, bytes =>
    if _h : bytes.length ≤ m1 + 1 then
      [⟨fid, off, bytes, true⟩]
    else
      ⟨fid, off, bytes.take (m1 + 1), false⟩ ::
        chunksOfAux fid m1 (off + (m1 + 1)) (bytes.drop (m1 + 1))
  termination_by _ bytes => bytes.length
  decreasing_by
    simp only [List.length_drop]
    omega

/-- Modelled from the spec: the disassembler's chunk stream for one frame. -/
def chunksOf (fid m1 : Nat) (bytes : List Nat) : List Chunk :=
  chunksOfAux fid m1 0 bytes

/-- Modelled from the spec: the in-order concatenation of the chunk streams
the disassembler produces for a list of frames `(frame_id, bytes)`. -/
def disassemblerStream (m1 : Nat) (frames : List (Nat × List Nat)) : List Chunk :=
  (frames.map (fun fb => chunksOf fb.1 m1 fb.2)).flatten

/-- A used reassembly slot (`struct FragmentProtoAssembler_frame`): the frame
id and the chunks received so far, in arrival order. -/
structure Slot where
  frameId : Nat
  chunks : List Chunk
  deriving Repr, DecidableEq

/-- Modelled from the spec: assembler state.  `slots` is the used-frame list
ordered oldest-first by the per-slot time watermark (a touched slot moves to
the back); `emitted` records the frames output, in emission order. -/
structure AsmState where
  slots : List Slot
  emitted : List (Nat × List Nat)
  deriving Repr, DecidableEq

/-- Whether some received chunk has `is_last` set. -/
def hasLast (cs : List Chunk) : Bool := cs.any (fun c => c.isLast)

/-- The frame length declared by the received `is_last` chunks
(`frame->length` in the header; 0 when none received yet). -/
def declaredLen (cs : List Chunk) : Nat :=
  ((cs.filter (fun c => c.isLast)).map (fun c => c.chunkStart + c.data.length)).sum

/-- Sum of the received chunks' lengths (`frame->sum`). -/
def sumLen (cs : List Chunk) : Nat := (cs.map (fun c => c.data.length)).sum

/-- Modelled from the spec: a frame is complete "when the stored chunks
exactly cover [0..length)" — the `is_last` chunk has been seen and the chunk
lengths sum to the declared frame length. -/
def complete (cs : List Chunk) : Bool :=
  hasLast cs && (sumLen cs == declaredLen cs)

/-- Reconstruct the frame bytes from received chunks by walking offsets:
emit the chunk starting at `off`, then continue past it; `fuel` bounds the
walk. -/
def assembleFrom (cs : List Chunk) : Nat → Nat → List Nat
  | 0, _ => []
  | fuel + 1, off =>
    match cs.find? (fun c => c.chunkStart == off) with
    | none => []
    | some c => c.data ++ (if c.isLast then [] else assembleFrom cs fuel (off + c.data.length))

/-- The bytes of a completed frame. -/
def assembleBytes (cs : List Chunk) : List Nat := assembleFrom cs cs.length 0

/-- Modelled from the spec: processing one arriving chunk (§4.E): if a slot
with this frame id exists, append the chunk (the slot becomes the most
recently touched); otherwise allocate a slot, evicting the oldest slot when
the pool of `cap` slots is full.  Whenever the stored chunks exactly cover
the declared length, the frame is emitted and its slot freed. -/
def processChunk (cap : Nat) (st : AsmState) (c : Chunk) : AsmState :=
  match st.slots.find? (fun sl => sl.frameId == c.frameId) with
  | some sl =>
      let sl2 : Slot := ⟨sl.frameId, sl.chunks ++ [c]⟩
      let others := st.slots.eraseP (fun sl => sl.frameId == c.frameId)
      if complete sl2.chunks then
        { slots := others,
          emitted := st.emitted ++ [(sl2.frameId, assembleBytes sl2.chunks)] }
      else
        { slots := others ++ [sl2], emitted := st.emitted }
  | none =>
      let base := if st.slots.length < cap then st.slots else st.slots.tail
      let sl2 : Slot := ⟨c.frameId, [c]⟩
      if complete sl2.chunks then
        { slots := base,
          emitted := st.emitted ++ [(sl2.frameId, assembleBytes sl2.chunks)] }
      else
        { slots := base ++ [sl2], emitted := st.emitted }

/-- Modelled from the spec: run the assembler (pool of `cap = num_frames`
slots) over a delivered chunk sequence. -/
def runAssembler (cap : Nat) (d : List Chunk) : AsmState :=
  d.foldl (processChunk cap) ⟨[], []⟩

/-- Out-of-order interleaving degree (header of
`FragmentProtoAssembler_Init`: "D is the minimum size of a hypothetical
buffer needed to order the input").  `BufSort D d B s` holds when a
reorderer holding at most `D` chunks, currently buffering `B`, can read the
delivered sequence `d` and output exactly the in-order sequence `s`; the
delivered sequence `d` has degree at most `D` relative to `s` when
`BufSort D d [] s`. -/
inductive BufSort (D : Nat) : List Chunk → List Chunk → List Chunk → Prop where
  | done : BufSort D [] [] []
  | read {d B s} (c : Chunk) :
      B.length + 1 ≤ D → BufSort D d (c :: B) s → BufSort D (c :: d) B s
  | emitBuf {d B s} (c : Chunk) :
      c ∈ B → BufSort D d (B.erase c) s → BufSort D d B (c :: s)
  | emitIn {d B s} (c : Chunk) :
      BufSort D d B s → BufSort D (c :: d) B (c :: s)

/-- The chunks of frame `fid` within a chunk sequence. -/
def gotOf (P : List Chunk) (fid : Nat) : List Chunk :=
  P.filter (fun c => c.frameId == fid)

/-- A frame is partially received w.r.t. the processed chunks `P`. -/
def partialIn (m1 : Nat) (P : List Chunk) (fb : Nat × List Nat) : Bool :=
  decide (0 < (gotOf P fb.1).length ∧
    (gotOf P fb.1).length < (chunksOf fb.1 m1 fb.2).length)

/-- The assembler-state invariant tying the state to the multiset `P` of
chunks processed so far, for a frame family `frames` and chunk capacity
`m1 + 1`. -/
def Inv (m1 : Nat) (frames : List (Nat × List Nat)) (st : AsmState)
    (P : List Chunk) : Prop :=
  (∀ fb ∈ frames,
    ((gotOf P fb.1).length = 0 →
        st.slots.filter (fun sl => sl.frameId == fb.1) = []) ∧
    (0 < (gotOf P fb.1).length →
        (gotOf P fb.1).length < (chunksOf fb.1 m1 fb.2).length →
        ∃ cs, st.slots.filter (fun sl => sl.frameId == fb.1) = [⟨fb.1, cs⟩] ∧
          cs.Perm (gotOf P fb.1)) ∧
    ((gotOf P fb.1).length = (chunksOf fb.1 m1 fb.2).length →
        st.slots.filter (fun sl => sl.frameId == fb.1) = [])) ∧
  (∀ sl ∈ st.slots, sl.frameId ∈ frames.map Prod.fst) ∧
  (∀ fb ∈ frames,
    st.emitted.count (fb.1, fb.2) =
      (if (gotOf P fb.1).length = (chunksOf fb.1 m1 fb.2).length then 1 else 0)) ∧
  (∀ x ∈ st.emitted, x ∈ frames) ∧
  st.slots.length = (frames.filter (partialIn m1 P)).length

end FPA

namespace PPPQ

theorem int_comparator_eq_neg_one {a b : Int} : int_comparator a b = -1 ↔ a < b := by
  unfold int_comparator
  by_cases h : a < b
  · simp [h]
  · by_cases h2 : a > b <;> simp [h, h2]

theorem heapPick_cases (b x : QueuedEntry) : heapPick b x = b ∨ heapPick b x = x := by
  unfold heapPick
  by_cases h : int_comparator x.priority b.priority = -1 <;> simp [h]

theorem heapPick_le_left (b x : QueuedEntry) : (heapPick b x).priority ≤ b.priority := by
  unfold heapPick
  by_cases h : int_comparator x.priority b.priority = -1
  · simp only [h, if_true]
    exact le_of_lt (int_comparator_eq_neg_one.mp h)
  · simp [h]

theorem heapPick_le_right (b x : QueuedEntry) : (heapPick b x).priority ≤ x.priority := by
  unfold heapPick
  by_cases h : int_comparator x.priority b.priority = -1
  · simp [h]
  · simp only [h, if_false]
    have := (not_iff_not.mpr (int_comparator_eq_neg_one (a := x.priority) (b := b.priority))).mp h
    omega

theorem foldl_heapPick_mem (es : List QueuedEntry) (b : QueuedEntry) :
    es.foldl heapPick b = b ∨ es.foldl heapPick b ∈ es := by
  induction es generalizing b with
  | nil => exact Or.inl rfl
  | cons e es ih =>
      rw [List.foldl_cons]
      rcases ih (heapPick b e) with h | h
      · rw [h]
        rcases heapPick_cases b e with h2 | h2
        · exact Or.inl h2
        · refine Or.inr ?_
          rw [h2]
          exact List.mem_cons_self e es
      · exact Or.inr (List.mem_cons_of_mem e h)

theorem foldl_heapPick_min (es : List QueuedEntry) (b : QueuedEntry) :
    (es.foldl heapPick b).priority ≤ b.priority ∧
      ∀ e ∈ es, (es.foldl heapPick b).priority ≤ e.priority := by
  induction es generalizing b with
  | nil => simp
  | cons e es ih =>
      obtain ⟨h1, h2⟩ := ih (heapPick b e)
      refine ⟨le_trans h1 (heapPick_le_left b e), ?_⟩
      intro x hx
      rcases List.mem_cons.mp hx with rfl | hx
      · exact le_trans h1 (heapPick_le_right b x)
      · exact h2 x hx

theorem heapGetFirst_mem {es : List QueuedEntry} {q : QueuedEntry}
    (h : heapGetFirst es = some q) : q ∈ es := by
  match es with
  | [] => simp [heapGetFirst] at h
  | e :: es =>
      simp only [heapGetFirst, Option.some.injEq] at h
      subst h
      rcases foldl_heapPick_mem es e with h2 | h2
      · rw [h2]
        exact List.mem_cons_self e es
      · exact List.mem_cons_of_mem e h2

theorem heapGetFirst_min {es : List QueuedEntry} {q : QueuedEntry}
    (h : heapGetFirst es = some q) : ∀ e ∈ es, q.priority ≤ e.priority := by
  match es with
  | [] => simp [heapGetFirst] at h
  | e :: es =>
      simp only [heapGetFirst, Option.some.injEq] at h
      subst h
      obtain ⟨h1, h2⟩ := foldl_heapPick_min es e
      intro x hx
      rcases List.mem_cons.mp hx with rfl | hx
      · exact h1
      · exact h2 x hx

theorem heapGetFirst_eq_none_iff {es : List QueuedEntry} :
    heapGetFirst es = none ↔ es = [] := by
  cases es <;> simp [heapGetFirst]

theorem countFid_nil (fid : Nat) : countFid [] fid = 0 := rfl

theorem countFid_cons (e : QueuedEntry) (es : List QueuedEntry) (fid : Nat) :
    countFid (e :: es) fid =
      (if e.flowId = fid then 1 else 0) + countFid es fid := by
  by_cases h : e.flowId = fid
  · simp [countFid, List.filter_cons, h]
    omega
  · simp [countFid, List.filter_cons, h]

theorem countFid_heapInsert (es : List QueuedEntry) (e : QueuedEntry) (fid : Nat) :
    countFid (heapInsert es e) fid =
      countFid es fid + (if e.flowId = fid then 1 else 0) := by
  by_cases h : e.flowId = fid <;> simp [countFid, heapInsert, List.filter_append, h]

theorem countFid_heapRemove_self (es : List QueuedEntry) (fid : Nat) :
    countFid (heapRemove es fid) fid = countFid es fid - 1 := by
  induction es with
  | nil => rfl
  | cons e es ih =>
      by_cases h : e.flowId = fid
      · have hp : (e.flowId == fid) = true := by simp [h]
        simp only [heapRemove, List.eraseP_cons, hp, cond_true]
        rw [countFid_cons]
        simp [h]
      · have hp : (e.flowId == fid) = false := by simp [h]
        simp only [heapRemove] at ih
        simp only [heapRemove, List.eraseP_cons, hp, cond_false]
        rw [countFid_cons, countFid_cons, ih]
        simp only [h, if_false]
        omega

theorem countFid_heapRemove_other (es : List QueuedEntry) (fid g : Nat)
    (hne : g ≠ fid) : countFid (heapRemove es fid) g = countFid es g := by
  induction es with
  | nil => rfl
  | cons e es ih =>
      by_cases h : e.flowId = fid
      · have hfg : e.flowId ≠ g := by omega
        have hp : (e.flowId == fid) = true := by simp [h]
        simp only [heapRemove, List.eraseP_cons, hp, cond_true]
        rw [countFid_cons]
        simp [hfg]
      · have hp : (e.flowId == fid) = false := by simp [h]
        simp only [heapRemove] at ih
        simp only [heapRemove, List.eraseP_cons, hp, cond_false]
        rw [countFid_cons, countFid_cons, ih]

theorem isQueued_iff_countFid {s : State} {fid : Nat} :
    isQueued s fid = true ↔ 0 < countFid s.queuedHeap fid := by
  constructor
  · intro h
    obtain ⟨e, he, hfe⟩ := List.any_eq_true.mp h
    have : e ∈ s.queuedHeap.filter (fun e => e.flowId == fid) :=
      List.mem_filter.mpr ⟨he, hfe⟩
    have := List.length_pos.mpr (List.ne_nil_of_mem this)
    simpa [countFid] using this
  · intro h
    have : s.queuedHeap.filter (fun e => e.flowId == fid) ≠ [] := by
      intro hnil
      simp [countFid, hnil] at h
    obtain ⟨e, he⟩ := List.exists_mem_of_ne_nil _ this
    obtain ⟨he1, he2⟩ := List.mem_filter.mp he
    exact List.any_eq_true.mpr ⟨e, he1, he2⟩

theorem isQueued_false_iff {s : State} {fid : Nat} :
    isQueued s fid = false ↔ countFid s.queuedHeap fid = 0 := by
  rw [← Bool.not_eq_true, isQueued_iff_countFid]
  omega

theorem countFid_pos_of_mem {es : List QueuedEntry} {e : QueuedEntry}
    (h : e ∈ es) : 0 < countFid es e.flowId := by
  have hm : e ∈ es.filter (fun x => x.flowId == e.flowId) :=
    List.mem_filter.mpr ⟨h, by simp⟩
  have := List.length_pos.mpr (List.ne_nil_of_mem hm)
  simpa [countFid] using this

/-- Field-level description of `schedule` when the heap yields `q`. -/
theorem schedule_spec {s : State} {q : QueuedEntry}
    (h : heapGetFirst s.queuedHeap = some q) :
    (schedule s).1.queuedHeap = heapRemove s.queuedHeap q.flowId ∧
    (schedule s).1.sendingFlow = some q.flowId ∧
    (schedule s).1.sendingLen = q.dataLen ∧
    (schedule s).1.scheduleJobSet = s.scheduleJobSet ∧
    (schedule s).1.freeing = s.freeing ∧
    (schedule s).1.useCancel = s.useCancel ∧
    (schedule s).2 = [Event.send q.flowId q.data q.dataLen] := by
  simp [schedule, h]

/-- `schedule` preserves the per-flow packet count and (for flows with no
queued packet) non-involvement, provided no flow was sending. -/
theorem schedule_inv {s : State} (hsend : s.sendingFlow = none) :
    (∀ f, inFlight (schedule s).1 f = inFlight s f) ∧
    (schedule s).1.scheduleJobSet = s.scheduleJobSet ∧
    (∀ f, isQueued s f = false →
        isQueued (schedule s).1 f = false ∧ (schedule s).1.sendingFlow ≠ some f) := by
  cases hq : heapGetFirst s.queuedHeap with
  | none =>
      refine ⟨by simp [schedule, hq], by simp [schedule, hq], ?_⟩
      intro f hf
      refine ⟨by simp [schedule, hq, hf], ?_⟩
      simp [schedule, hq, hsend]
  | some q =>
      have hqmem := heapGetFirst_mem hq
      have hqpos : 0 < countFid s.queuedHeap q.flowId := countFid_pos_of_mem hqmem
      obtain ⟨h1, h2, _, h4, _, _, _⟩ := schedule_spec hq
      refine ⟨?_, h4, ?_⟩
      · intro f
        by_cases hf : f = q.flowId
        · subst hf
          simp only [inFlight, h1, h2, countFid_heapRemove_self, hsend]
          simp
          omega
        · have hne : f ≠ q.flowId := hf
          have hne2 : q.flowId ≠ f := Ne.symm hne
          simp only [inFlight, h1, h2, countFid_heapRemove_other _ _ _ hne, hsend]
          simp [hne2]
      · intro f hf
        have hcnt : countFid s.queuedHeap f = 0 := isQueued_false_iff.mp hf
        have hne : f ≠ q.flowId := by
          intro hEq
          rw [hEq] at hcnt
          omega
        constructor
        · rw [isQueued_false_iff]
          simp only [h1, countFid_heapRemove_other _ _ _ hne]
          exact hcnt
        · rw [h2]
          intro hEq
          exact hne (Option.some.inj hEq).symm

/-- Rewriting lemma: `input_handler_send` when the guard takes the schedule
branch. -/
theorem input_handler_send_pos {s : State} {fid : Nat} {prio : Int}
    {data : List Byte} {dataLen : Int}
    (h1 : s.sendingFlow = none) (h2 : s.scheduleJobSet = false) :
    input_handler_send s fid prio data dataLen =
      schedule { s with queuedHeap := heapInsert s.queuedHeap ⟨fid, prio, data, dataLen⟩ } := by
  simp [input_handler_send, h1, h2]

/-- Rewriting lemma: `input_handler_send` when the guard does not hold. -/
theorem input_handler_send_neg {s : State} {fid : Nat} {prio : Int}
    {data : List Byte} {dataLen : Int}
    (h : ¬(s.sendingFlow = none ∧ s.scheduleJobSet = false)) :
    input_handler_send s fid prio data dataLen =
      ({ s with queuedHeap := heapInsert s.queuedHeap ⟨fid, prio, data, dataLen⟩ }, []) := by
  simp only [input_handler_send]
  rw [if_neg]
  exact h

/-- Rewriting lemma for `output_handler_done` with a sending flow. -/
theorem output_handler_done_spec {s : State} {fid : Nat}
    (h : s.sendingFlow = some fid) :
    output_handler_done s =
      ({ s with sendingFlow := none, scheduleJobSet := true }, [Event.done fid]) := by
  simp [output_handler_done, h]

/-- Rewriting lemma for `runScheduleJob` on an empty heap. -/
theorem runScheduleJob_empty {s : State} (h : s.queuedHeap = []) :
    runScheduleJob s = ({ s with scheduleJobSet := false }, []) := by
  simp [runScheduleJob, h, heapGetFirst]

/-- Rewriting lemma for `runScheduleJob` on a nonempty heap. -/
theorem runScheduleJob_nonempty {s : State} (h : s.queuedHeap ≠ []) :
    runScheduleJob s = schedule { s with scheduleJobSet := false } := by
  have : heapGetFirst s.queuedHeap ≠ none := fun hc => h (heapGetFirst_eq_none_iff.mp hc)
  have hs : (heapGetFirst s.queuedHeap).isSome := Option.isSome_iff_ne_none.mpr this
  simp [runScheduleJob, hs]

theorem Inv_init : Inv initSys := by
  refine ⟨?_, ?_, ?_⟩ <;> intro f <;> simp [initSys, initState, inFlight, countFid, isQueued]


theorem Inv_submit {g : Sys} {fid : Nat} {prio : Int} {data : List Byte} {dataLen : Int}
    (hout : g.outstanding fid = false) (hinv : Inv g) :
    Inv ⟨(input_handler_send g.st fid prio data dataLen).1,
         fun f => if f = fid then true else g.outstanding f⟩ := by
  obtain ⟨inv1, inv2, inv3⟩ := hinv
  obtain ⟨hq, hs⟩ := inv2 fid hout
  have hcnt : countFid g.st.queuedHeap fid = 0 := isQueued_false_iff.mp hq
  have hs1count : ∀ f,
      countFid (heapInsert g.st.queuedHeap ⟨fid, prio, data, dataLen⟩) f =
        countFid g.st.queuedHeap f + (if fid = f then 1 else 0) := by
    intro f
    simpa using countFid_heapInsert g.st.queuedHeap ⟨fid, prio, data, dataLen⟩ f
  have hs1fl : ∀ f,
      inFlight { g.st with
        queuedHeap := heapInsert g.st.queuedHeap ⟨fid, prio, data, dataLen⟩ } f ≤ 1 := by
    intro f
    by_cases hf : f = fid
    · subst hf
      simp only [inFlight, hs1count, hcnt]
      rw [if_neg hs]
      simp
    · have hne : ¬(fid = f) := fun hx => hf hx.symm
      have := inv1 f
      simp only [inFlight] at this ⊢
      simp only [hs1count, if_neg hne]
      omega
  have hs1quiet : ∀ f, (if f = fid then true else g.outstanding f) = false →
      isQueued { g.st with
        queuedHeap := heapInsert g.st.queuedHeap ⟨fid, prio, data, dataLen⟩ } f = false ∧
      ({ g.st with
        queuedHeap := heapInsert g.st.queuedHeap ⟨fid, prio, data, dataLen⟩ } : State).sendingFlow
        ≠ some f := by
    intro f hf
    by_cases hff : f = fid
    · rw [if_pos hff] at hf
      cases hf
    · rw [if_neg hff] at hf
      obtain ⟨hq2, hs2⟩ := inv2 f hf
      have hne : ¬(fid = f) := fun hx => hff hx.symm
      have hc0 : countFid (heapInsert g.st.queuedHeap ⟨fid, prio, data, dataLen⟩) f = 0 := by
        rw [hs1count, if_neg hne]
        simpa using isQueued_false_iff.mp hq2
      refine ⟨isQueued_false_iff.mpr hc0, hs2⟩
  by_cases hcond : g.st.sendingFlow = none ∧ g.st.scheduleJobSet = false
  · rw [input_handler_send_pos hcond.1 hcond.2]
    obtain ⟨sa, sb, sc⟩ := schedule_inv
      (s := { g.st with queuedHeap := heapInsert g.st.queuedHeap ⟨fid, prio, data, dataLen⟩ })
      hcond.1
    refine ⟨?_, ?_, ?_⟩
    · intro f
      rw [sa f]
      exact hs1fl f
    · intro f hf
      exact sc f ((hs1quiet f hf).1)
    · intro hjs
      rw [sb] at hjs
      have hfalse : g.st.scheduleJobSet = true := hjs
      rw [hcond.2] at hfalse
      cases hfalse
  · rw [input_handler_send_neg hcond]
    refine ⟨hs1fl, hs1quiet, ?_⟩
    intro hjs
    exact inv3 hjs

theorem Inv_outputDone {g : Sys} {fid : Nat}
    (hsend : g.st.sendingFlow = some fid) (hinv : Inv g) :
    Inv ⟨(output_handler_done g.st).1,
         fun f => if f = fid then false else g.outstanding f⟩ := by
  obtain ⟨inv1, inv2, inv3⟩ := hinv
  rw [output_handler_done_spec hsend]
  have hcnt0 : countFid g.st.queuedHeap fid = 0 := by
    have := inv1 fid
    simp only [inFlight, hsend] at this
    simp at this
    omega
  refine ⟨?_, ?_, ?_⟩
  · intro f
    have := inv1 f
    simp only [inFlight] at this ⊢
    simp
    omega
  · intro f hf
    by_cases hff : f = fid
    · subst hff
      refine ⟨isQueued_false_iff.mpr hcnt0, by simp⟩
    · replace hf : (if f = fid then false else g.outstanding f) = false := hf
      rw [if_neg hff] at hf
      obtain ⟨hq2, _⟩ := inv2 f hf
      exact ⟨hq2, by simp⟩
  · intro
    simp

theorem Inv_runJob {g : Sys}
    (hjob : g.st.scheduleJobSet = true) (hinv : Inv g) :
    Inv ⟨(runScheduleJob g.st).1, g.outstanding⟩ := by
  obtain ⟨inv1, inv2, inv3⟩ := hinv
  have hsnone : g.st.sendingFlow = none := inv3 hjob
  by_cases hne : g.st.queuedHeap = []
  · rw [runScheduleJob_empty hne]
    refine ⟨?_, ?_, ?_⟩
    · intro f
      have := inv1 f
      simp only [inFlight] at this ⊢
      exact this
    · intro f hf
      obtain ⟨hq2, hs2⟩ := inv2 f hf
      exact ⟨hq2, hs2⟩
    · intro hjs
      cases hjs
  · rw [runScheduleJob_nonempty hne]
    have hs0send : ({ g.st with scheduleJobSet := false } : State).sendingFlow = none := hsnone
    obtain ⟨sa, sb, sc⟩ := schedule_inv (s := { g.st with scheduleJobSet := false }) hs0send
    refine ⟨?_, ?_, ?_⟩
    · intro f
      rw [sa f]
      have := inv1 f
      simp only [inFlight] at this ⊢
      exact this
    · intro f hf
      refine sc f ?_
      obtain ⟨hq2, _⟩ := inv2 f hf
      exact hq2
    · intro hjs
      rw [sb] at hjs
      cases hjs

theorem Inv_release {g : Sys}
    (hinv : Inv g) :
    Inv ⟨(PacketPassPriorityQueueFlow_Release g.st).1, g.outstanding⟩ := by
  obtain ⟨inv1, inv2, inv3⟩ := hinv
  simp only [PacketPassPriorityQueueFlow_Release]
  refine ⟨?_, ?_, ?_⟩
  · intro f
    have := inv1 f
    simp only [inFlight] at this ⊢
    simp
    omega
  · intro f hf
    obtain ⟨hq2, _⟩ := inv2 f hf
    exact ⟨hq2, by simp⟩
  · intro
    simp

theorem Inv_flowFree {g : Sys} {fid : Nat} (hinv : Inv g) :
    Inv ⟨PacketPassPriorityQueueFlow_Free g.st fid,
         fun f => if f = fid then false else g.outstanding f⟩ := by
  obtain ⟨inv1, inv2, inv3⟩ := hinv
  simp only [PacketPassPriorityQueueFlow_Free]
  by_cases hsd : g.st.sendingFlow = some fid
  · rw [if_pos hsd]
    by_cases hqd : isQueued g.st fid
    · have hqX : isQueued { g.st with sendingFlow := none } fid = true := hqd
      rw [if_pos hqX]
      have hcp : 0 < countFid g.st.queuedHeap fid := isQueued_iff_countFid.mp hqd
      refine ⟨?_, ?_, ?_⟩
      · intro f
        have := inv1 f
        by_cases hf : f = fid
        · subst hf
          simp only [inFlight, countFid_heapRemove_self] at this ⊢
          simp
          omega
        · have hne : f ≠ fid := hf
          simp only [inFlight, countFid_heapRemove_other _ _ _ hne] at this ⊢
          simp
          omega
      · intro f hf
        by_cases hff : f = fid
        · subst hff
          constructor
          · rw [isQueued_false_iff]
            simp only [countFid_heapRemove_self]
            have := inv1 f
            simp only [inFlight, hsd] at this
            simp at this
            omega
          · simp
        · replace hf : (if f = fid then false else g.outstanding f) = false := hf
          rw [if_neg hff] at hf
          obtain ⟨hq2, hs2⟩ := inv2 f hf
          constructor
          · rw [isQueued_false_iff]
            simp only [countFid_heapRemove_other _ _ _ hff]
            exact isQueued_false_iff.mp hq2
          · simp
      · intro
        simp
    · have hqX : ¬(isQueued { g.st with sendingFlow := none } fid = true) := hqd
      rw [if_neg hqX]
      refine ⟨?_, ?_, ?_⟩
      · intro f
        have := inv1 f
        simp only [inFlight] at this ⊢
        simp
        omega
      · intro f hf
        by_cases hff : f = fid
        · subst hff
          refine ⟨by simpa using hqd, by simp⟩
        · replace hf : (if f = fid then false else g.outstanding f) = false := hf
          rw [if_neg hff] at hf
          obtain ⟨hq2, hs2⟩ := inv2 f hf
          exact ⟨hq2, by simp⟩
      · intro
        simp
  · rw [if_neg hsd]
    by_cases hqd : isQueued g.st fid
    · rw [if_pos hqd]
      have hcp : 0 < countFid g.st.queuedHeap fid := isQueued_iff_countFid.mp hqd
      refine ⟨?_, ?_, ?_⟩
      · intro f
        have := inv1 f
        by_cases hf : f = fid
        · subst hf
          simp only [inFlight, countFid_heapRemove_self] at this ⊢
          omega
        · have hne : f ≠ fid := hf
          simp only [inFlight, countFid_heapRemove_other _ _ _ hne] at this ⊢
          omega
      · intro f hf
        by_cases hff : f = fid
        · subst hff
          constructor
          · rw [isQueued_false_iff]
            simp only [countFid_heapRemove_self]
            have := inv1 f
            simp only [inFlight] at this
            omega
          · exact hsd
        · replace hf : (if f = fid then false else g.outstanding f) = false := hf
          rw [if_neg hff] at hf
          obtain ⟨hq2, hs2⟩ := inv2 f hf
          constructor
          · rw [isQueued_false_iff]
            simp only [countFid_heapRemove_other _ _ _ hff]
            exact isQueued_false_iff.mp hq2
          · exact hs2
      · intro hjs
        exact inv3 hjs
    · rw [if_neg hqd]
      refine ⟨inv1, ?_, inv3⟩
      intro f hf
      by_cases hff : f = fid
      · subst hff
        exact ⟨by simpa using hqd, hsd⟩
      · replace hf : (if f = fid then false else g.outstanding f) = false := hf
        rw [if_neg hff] at hf
        exact inv2 f hf

theorem Inv_enableCancel {g : Sys} (hinv : Inv g) :
    Inv ⟨PacketPassPriorityQueue_EnableCancel g.st, g.outstanding⟩ := by
  obtain ⟨inv1, inv2, inv3⟩ := hinv
  exact ⟨fun f => inv1 f, fun f hf => inv2 f hf, fun h => inv3 h⟩

theorem Inv_prepareFree {g : Sys} (hinv : Inv g) :
    Inv ⟨PacketPassPriorityQueue_PrepareFree g.st, g.outstanding⟩ := by
  obtain ⟨inv1, inv2, inv3⟩ := hinv
  exact ⟨fun f => inv1 f, fun f hf => inv2 f hf, fun h => inv3 h⟩

/-- Every contract-respecting step preserves the invariant. -/
theorem Inv_step {g : Sys} {op : Op} {g' : Sys} {evs : List Event}
    (hstep : Step g op g' evs) (hinv : Inv g) : Inv g' := by
  cases hstep with
  | submit hfree hout => exact Inv_submit hout hinv
  | outputDone hfree hsend => exact Inv_outputDone hsend hinv
  | runJob hfree hjob => exact Inv_runJob hjob hinv
  | release hcancel hsend hfree => exact Inv_release hinv
  | flowFree hguard => exact Inv_flowFree hinv
  | enableCancel hc => exact Inv_enableCancel hinv
  | prepareFree => exact Inv_prepareFree hinv

/-- Every reachable system state satisfies the invariant. -/
theorem Inv_reachable {g : Sys} (h : Reachable g) : Inv g := by
  induction h with
  | init => exact Inv_init
  | step _ hstep ih => exact Inv_step hstep ih

/-- Helper shared by several results: from a state whose schedule job is set,
the only step that can emit a `send` on the output is running the schedule
job.  (`input_handler_send` checks `BPending_IsSet`, `output_handler_done`
emits only `Done`, `Release` emits only `Cancel`, `Flow_Free` emits nothing.) -/
theorem send_only_from_schedule_job {g : Sys} {op : Op} {g' : Sys} {evs : List Event}
    (hjob : g.st.scheduleJobSet = true) (hstep : Step g op g' evs)
    (hsend : ∃ f d l, Event.send f d l ∈ evs) : op = .runJob := by
  obtain ⟨f, d, l, hmem⟩ := hsend
  cases hstep with
  | submit hfree hout =>
      have hneg : ¬(g.st.sendingFlow = none ∧ g.st.scheduleJobSet = false) := by
        intro ⟨_, hc⟩
        rw [hjob] at hc
        cases hc
      rw [input_handler_send_neg hneg] at hmem
      simp at hmem
  | outputDone hfree hsend2 =>
      rw [output_handler_done_spec hsend2] at hmem
      simp at hmem
  | runJob hfree hjob2 => rfl
  | release hcancel hsend2 hfree =>
      simp only [PacketPassPriorityQueueFlow_Release] at hmem
      simp at hmem
  | flowFree hguard => simp at hmem
  | enableCancel hc => simp at hmem
  | prepareFree => simp at hmem

/-- C1: for every flow of a `PacketPassPriorityQueue`, at any reachable
instant at most one packet of that flow is queued or in flight, and under the
flow contract (no outstanding packet) the preconditions of
`input_handler_send` — the flow is not the sending flow and is not queued —
always hold. -/
theorem C1_flow_at_most_one_packet {g : Sys} (h : Reachable g) (fid : Nat) :
    inFlight g.st fid ≤ 1 ∧
    (g.outstanding fid = false →
        isQueued g.st fid = false ∧ g.st.sendingFlow ≠ some fid) := by
  obtain ⟨inv1, inv2, _⟩ := Inv_reachable h
  exact ⟨inv1 fid, inv2 fid⟩

/-- Witness for C1 at a concrete reachable state: flow 1 has just submitted a
packet onto an idle queue. -/
theorem C1_flow_at_most_one_packet_witness :
    inFlight (⟨(input_handler_send initSys.st 1 5 [2, 3] 2).1,
        fun f => if f = 1 then true else initSys.outstanding f⟩ : Sys).st 1 ≤ 1 ∧
    ((⟨(input_handler_send initSys.st 1 5 [2, 3] 2).1,
        fun f => if f = 1 then true else initSys.outstanding f⟩ : Sys).outstanding 1 = false →
      isQueued (⟨(input_handler_send initSys.st 1 5 [2, 3] 2).1,
        fun f => if f = 1 then true else initSys.outstanding f⟩ : Sys).st 1 = false ∧
      (⟨(input_handler_send initSys.st 1 5 [2, 3] 2).1,
        fun f => if f = 1 then true else initSys.outstanding f⟩ : Sys).st.sendingFlow ≠ some 1) :=
  C1_flow_at_most_one_packet
    (Reachable.step Reachable.init
      (@Step.submit initSys 1 5 [2, 3] 2 rfl rfl)) 1

/-- C10: while the deferred schedule job is set, a packet submitted by any
flow is only inserted into the queued heap — the heap gains exactly that
node, the sending flow is unchanged and no event (in particular no `Send`)
is issued — and any step that does emit a `Send` to the output from such a
state is the schedule job handler itself. -/
theorem C10_job_set_defers_send {g : Sys} {op : Op} {g' : Sys} {evs : List Event}
    (hjob : g.st.scheduleJobSet = true) (hstep : Step g op g' evs) :
    (∀ fid prio data dataLen, op = .submit fid prio data dataLen →
        g'.st.queuedHeap = heapInsert g.st.queuedHeap ⟨fid, prio, data, dataLen⟩ ∧
        g'.st.sendingFlow = g.st.sendingFlow ∧ evs = []) ∧
    ((∃ f d l, Event.send f d l ∈ evs) → op = .runJob) := by
  constructor
  · intro fid prio data dataLen hop
    cases hstep with
    | submit hfree hout =>
        cases hop
        have hneg : ¬(g.st.sendingFlow = none ∧ g.st.scheduleJobSet = false) := by
          intro ⟨_, hc⟩
          rw [hjob] at hc
          cases hc
        rw [input_handler_send_neg hneg]
        exact ⟨rfl, rfl, rfl⟩
    | outputDone hfree hsend2 => cases hop
    | runJob hfree hjob2 => cases hop
    | release hcancel hsend2 hfree => cases hop
    | flowFree hguard => cases hop
    | enableCancel hc => cases hop
    | prepareFree => cases hop
  · exact send_only_from_schedule_job hjob hstep

/-- Witness for C10: a submit arriving while the schedule job is set. -/
theorem C10_job_set_defers_send_witness :
    (∀ fid prio data dataLen,
        (Op.submit 1 5 [2, 3] 2 : Op) = .submit fid prio data dataLen →
        (⟨(input_handler_send { initState with scheduleJobSet := true } 1 5 [2, 3] 2).1,
            fun f => if f = 1 then true else false⟩ : Sys).st.queuedHeap =
          heapInsert ({ initState with scheduleJobSet := true } : State).queuedHeap
            ⟨fid, prio, data, dataLen⟩ ∧
        (⟨(input_handler_send { initState with scheduleJobSet := true } 1 5 [2, 3] 2).1,
            fun f => if f = 1 then true else false⟩ : Sys).st.sendingFlow =
          ({ initState with scheduleJobSet := true } : State).sendingFlow ∧
        (input_handler_send { initState with scheduleJobSet := true } 1 5 [2, 3] 2).2 = []) ∧
    ((∃ f d l, Event.send f d l ∈
        (input_handler_send { initState with scheduleJobSet := true } 1 5 [2, 3] 2).2) →
      (Op.submit 1 5 [2, 3] 2 : Op) = .runJob) :=
  C10_job_set_defers_send (g := ⟨{ initState with scheduleJobSet := true }, fun _ => false⟩)
    rfl (@Step.submit ⟨{ initState with scheduleJobSet := true }, fun _ => false⟩ 1 5 [2, 3] 2 rfl rfl)

/-- C2: `PacketPassPriorityQueueFlow_Release` on the flow whose packet is in
flight (cancel enabled) invokes the downstream `Cancel` and nothing else;
afterwards no flow is sending, the deferred schedule job is set, and the next
`Send` to the output can only come from the schedule job handler. -/
theorem C2_release_cancel_and_defer {g : Sys} {fid : Nat} {g' : Sys} {evs : List Event}
    (hstep : Step g (.release fid) g' evs) :
    evs = [Event.cancel] ∧
    g'.st.sendingFlow = none ∧
    g'.st.scheduleJobSet = true ∧
    (∀ op g2 evs2, Step g' op g2 evs2 →
        (∃ f d l, Event.send f d l ∈ evs2) → op = .runJob) := by
  cases hstep with
  | release hcancel hsend hfree =>
      refine ⟨rfl, rfl, rfl, ?_⟩
      intro op g2 evs2 hstep2 hsend2
      exact send_only_from_schedule_job rfl hstep2 hsend2

/-- Witness for C2: flow 1 is sending, flow 2 is queued, cancel is enabled. -/
theorem C2_release_cancel_and_defer_witness :
    (PacketPassPriorityQueueFlow_Release exStateRelease).2 = [Event.cancel] ∧
    (⟨(PacketPassPriorityQueueFlow_Release exStateRelease).1,
        fun _ => true⟩ : Sys).st.sendingFlow = none ∧
    (⟨(PacketPassPriorityQueueFlow_Release exStateRelease).1,
        fun _ => true⟩ : Sys).st.scheduleJobSet = true ∧
    (∀ op g2 evs2,
        Step (⟨(PacketPassPriorityQueueFlow_Release exStateRelease).1,
          fun _ => true⟩ : Sys) op g2 evs2 →
        (∃ f d l, Event.send f d l ∈ evs2) → op = .runJob) :=
  C2_release_cancel_and_defer (g := ⟨exStateRelease, fun _ => true⟩)
    (@Step.release ⟨exStateRelease, fun _ => true⟩ 1 rfl rfl rfl)

/-- C3: whenever the output is idle (no sending flow) and at least one flow
has a queued packet, `schedule` — the only routine that starts the next send —
picks a queued flow whose priority value is minimal among all queued flows
and sends exactly its packet. -/
theorem C3_schedule_picks_minimal_priority {s : State}
    (_h_idle : s.sendingFlow = none) (hne : s.queuedHeap ≠ []) :
    ∃ q : QueuedEntry, q ∈ s.queuedHeap ∧
      (schedule s).2 = [Event.send q.flowId q.data q.dataLen] ∧
      (schedule s).1.sendingFlow = some q.flowId ∧
      ∀ e ∈ s.queuedHeap, q.priority ≤ e.priority := by
  cases hq : heapGetFirst s.queuedHeap with
  | none => exact absurd (heapGetFirst_eq_none_iff.mp hq) hne
  | some q =>
      obtain ⟨_, h2, _, _, _, _, h7⟩ := schedule_spec hq
      exact ⟨q, heapGetFirst_mem hq, h7, h2, heapGetFirst_min hq⟩

/-- Witness for C3: two queued flows with priorities 5 and 3. -/
theorem C3_schedule_picks_minimal_priority_witness :
    ∃ q : QueuedEntry, q ∈ exStateTwoQueued.queuedHeap ∧
      (schedule exStateTwoQueued).2 = [Event.send q.flowId q.data q.dataLen] ∧
      (schedule exStateTwoQueued).1.sendingFlow = some q.flowId ∧
      ∀ e ∈ exStateTwoQueued.queuedHeap, q.priority ≤ e.priority :=
  C3_schedule_picks_minimal_priority rfl (by simp [exStateTwoQueued])

theorem countFid_eq_zero_of_not_mem_map {es : List QueuedEntry} {f : Nat}
    (h : f ∉ es.map QueuedEntry.flowId) : countFid es f = 0 := by
  induction es with
  | nil => rfl
  | cons e es ih =>
      simp only [List.map_cons, List.mem_cons] at h
      push_neg at h
      rw [countFid_cons, ih h.2]
      have : e.flowId ≠ f := Ne.symm h.1
      simp [this]

theorem countFid_le_one_of_nodup {es : List QueuedEntry}
    (h : (es.map QueuedEntry.flowId).Nodup) (f : Nat) : countFid es f ≤ 1 := by
  induction es with
  | nil => simp [countFid]
  | cons e es ih =>
      simp only [List.map_cons, List.nodup_cons] at h
      rw [countFid_cons]
      by_cases he : e.flowId = f
      · subst he
        rw [countFid_eq_zero_of_not_mem_map h.1]
        simp
      · simp only [he, if_false]
        have := ih h.2
        omega

theorem filter_heapRemove_other (es : List QueuedEntry) (fid g : Nat)
    (h : g ≠ fid) :
    (heapRemove es fid).filter (fun e => e.flowId == g) =
      es.filter (fun e => e.flowId == g) := by
  induction es with
  | nil => rfl
  | cons e es ih =>
      by_cases hp : e.flowId = fid
      · have hpb : (e.flowId == fid) = true := by simp [hp]
        have hg : (e.flowId == g) = false := by simp [hp, Ne.symm h]
        simp only [heapRemove, List.eraseP_cons, hpb, cond_true, List.filter_cons, hg]
        simp
      · have hpb : (e.flowId == fid) = false := by simp [hp]
        simp only [heapRemove] at ih
        simp only [heapRemove, List.eraseP_cons, hpb, cond_false, List.filter_cons]
        rw [ih]

/-- C9: freeing a flow that is queued but not sending removes exactly that
flow's node from the queued heap and changes nothing else: the sending flow,
the pending-schedule-job flag, the stored send length and every other flow's
queued packet (data and length) are untouched. -/
theorem C9_flowFree_removes_only_this_node {s : State} {fid : Nat}
    (hq : isQueued s fid = true)
    (hns : s.sendingFlow ≠ some fid)
    (hnodup : (s.queuedHeap.map QueuedEntry.flowId).Nodup) :
    isQueued (PacketPassPriorityQueueFlow_Free s fid) fid = false ∧
    (PacketPassPriorityQueueFlow_Free s fid).queuedHeap = heapRemove s.queuedHeap fid ∧
    (PacketPassPriorityQueueFlow_Free s fid).sendingFlow = s.sendingFlow ∧
    (PacketPassPriorityQueueFlow_Free s fid).scheduleJobSet = s.scheduleJobSet ∧
    (PacketPassPriorityQueueFlow_Free s fid).sendingLen = s.sendingLen ∧
    ∀ g, g ≠ fid →
      (PacketPassPriorityQueueFlow_Free s fid).queuedHeap.filter (fun e => e.flowId == g) =
        s.queuedHeap.filter (fun e => e.flowId == g) := by
  have hfree : PacketPassPriorityQueueFlow_Free s fid =
      { s with queuedHeap := heapRemove s.queuedHeap fid } := by
    simp only [PacketPassPriorityQueueFlow_Free]
    rw [if_neg hns, if_pos hq]
  rw [hfree]
  refine ⟨?_, rfl, rfl, rfl, rfl, ?_⟩
  · rw [isQueued_false_iff]
    simp only [countFid_heapRemove_self]
    have h1 : countFid s.queuedHeap fid ≤ 1 := countFid_le_one_of_nodup hnodup fid
    omega
  · intro g hg
    exact filter_heapRemove_other s.queuedHeap fid g hg

/-- Witness for C9: flows 1 and 2 queued, flow 3 sending; free flow 1. -/
theorem C9_flowFree_removes_only_this_node_witness :
    isQueued (PacketPassPriorityQueueFlow_Free exStateFreeTarget 1) 1 = false ∧
    (PacketPassPriorityQueueFlow_Free exStateFreeTarget 1).queuedHeap =
      heapRemove exStateFreeTarget.queuedHeap 1 ∧
    (PacketPassPriorityQueueFlow_Free exStateFreeTarget 1).sendingFlow =
      exStateFreeTarget.sendingFlow ∧
    (PacketPassPriorityQueueFlow_Free exStateFreeTarget 1).scheduleJobSet =
      exStateFreeTarget.scheduleJobSet ∧
    (PacketPassPriorityQueueFlow_Free exStateFreeTarget 1).sendingLen =
      exStateFreeTarget.sendingLen ∧
    ∀ g, g ≠ 1 →
      (PacketPassPriorityQueueFlow_Free exStateFreeTarget 1).queuedHeap.filter
          (fun e => e.flowId == g) =
        exStateFreeTarget.queuedHeap.filter (fun e => e.flowId == g) :=
  @C9_flowFree_removes_only_this_node exStateFreeTarget 1
    (by decide) (by decide) (by decide)

end PPPQ

namespace BPendingModel

theorem sublist_erase_of_not_mem {s l : List Nat} {j : Nat}
    (hs : s.Sublist l) (hj : j ∉ s) : s.Sublist (l.erase j) := by
  induction hs with
  | slnil => simp
  | @cons l₁ l₂ a h ih =>
      by_cases ha : a = j
      · subst ha
        rw [List.erase_cons_head]
        exact h
      · rw [List.erase_cons_tail (by simpa using ha)]
        exact List.Sublist.cons a (ih hj)
  | @cons₂ l₁ l₂ a h ih =>
      have hja : a ≠ j := by
        intro hc
        exact hj (hc ▸ List.mem_cons_self a l₁)
      have hjs : j ∉ l₁ := fun hc => hj (List.mem_cons_of_mem a hc)
      rw [List.erase_cons_tail (by simpa using hja)]
      exact List.Sublist.cons₂ a (ih hjs)

theorem sublist_set_of_not_mem {s q : List Nat} {j : Nat}
    (hs : s.Sublist q) (hj : j ∉ s) : s.Sublist (set q j) :=
  List.Sublist.cons j (sublist_erase_of_not_mem hs hj)

theorem sublist_foldl_set {s q : List Nat} {js : List Nat}
    (hs : s.Sublist q) (hj : ∀ j ∈ js, j ∉ s) : s.Sublist (js.foldl set q) := by
  induction js generalizing q with
  | nil => exact hs
  | cons j js ih =>
      rw [List.foldl_cons]
      exact ih (sublist_set_of_not_mem hs (hj j (List.mem_cons_self j js)))
        (fun x hx => hj x (List.mem_cons_of_mem j hx))

theorem drain_no_effects (q : Queue) :
    drain (fun _ => []) q.length q = q := by
  induction q with
  | nil => rfl
  | cons h rest ih =>
      simp only [List.length_cons, drain, List.foldl_nil]
      rw [ih]

/-- C4: if job A is set before job B (with arbitrary other jobs set in
between but none executed), then when the group is drained B's handler runs
before A's; in particular `set h1; set h2; set h3` drains as `h3, h2, h1`,
and a job `h4` set from inside `h3`'s running handler runs before the
previously set `h2` and `h1`. -/
theorem C4_lifo_ordering (q : Queue) (a b : Nat) (js : List Nat)
    (hab : a ≠ b) (ha : a ∉ js) (hb : b ∉ js) :
    [b, a].Sublist
      (drain (fun _ => [])
        (js.foldl set (set (set q a) b)).length
        (js.foldl set (set (set q a) b))) ∧
    drain (fun _ => []) 3 (set (set (set [] 1) 2) 3) = [3, 2, 1] ∧
    drain scenarioEffects 4 (set (set (set [] 1) 2) 3) = [3, 4, 2, 1] := by
  refine ⟨?_, by decide, by decide⟩
  rw [drain_no_effects]
  have h1 : [b, a].Sublist (set (set q a) b) := by
    simp only [set]
    rw [List.erase_cons_tail (by simpa using hab)]
    exact List.Sublist.cons₂ b (List.Sublist.cons₂ a (by simp))
  refine sublist_foldl_set h1 ?_
  intro j hj hmem
  rcases List.mem_cons.mp hmem with rfl | hmem2
  · exact hb hj
  · rcases List.mem_cons.mp hmem2 with rfl | hmem3
    · exact ha hj
    · cases hmem3

/-- Witness for C4: queue `[7]`, A = 1 set, then 5 set, then B = 2 set. -/
theorem C4_lifo_ordering_witness :
    [2, 1].Sublist
      (drain (fun _ => [])
        ([5].foldl set (set (set [7] 1) 2)).length
        ([5].foldl set (set (set [7] 1) 2))) ∧
    drain (fun _ => []) 3 (set (set (set [] 1) 2) 3) = [3, 2, 1] ∧
    drain scenarioEffects 4 (set (set (set [] 1) 2) 3) = [3, 4, 2, 1] :=
  C4_lifo_ordering [7] 1 2 [5] (by decide) (by decide) (by decide)

/-- C5 fails as stated: on the queue `[1]` in which job 1 is already set,
`set 1` then `unset 1` yields the empty queue, not the original `[1]`. -/
theorem C5_counterexample : ¬(unset (set [1] 1) 1 = [1]) := by decide

/-- C5 (amended): for every queue state in which the job is **not already
set**, `BPending_Set` followed by `BPending_Unset` restores the job list
exactly; in general the composition removes the job from the list. -/
theorem C5_set_unset_restores (q : Queue) (h : Nat) (hq : h ∉ q) :
    unset (set q h) h = q := by
  simp only [set, unset, List.erase_cons_head]
  exact List.erase_of_not_mem hq

/-- Witness for C5 (amended): queue `[2, 3]`, job 1 not set. -/
theorem C5_set_unset_restores_witness : unset (set [2, 3] 1) 1 = [2, 3] :=
  C5_set_unset_restores [2, 3] 1 (by decide)

end BPendingModel

namespace DataProtoModel

/-- C7 fails on this version of `DataProto.h`: the claim would require
either that the `Received` contract rule out calling the up-state handler
synchronously, or that `DataProtoDest` carry a pending job (besides the
keepalive job) with which to defer the up transition; the header provides
neither — the doc comment says "May call the up state handler" and the only
`BPending` field is `keepalive_job`. -/
theorem C7_counterexample :
    ¬(dataProtoDest_Received_contract.mayCallUpStateHandler = false ∨
      ∃ f, f ∈ dataProtoDestFields ∧ f.type = "BPending" ∧ f.name ≠ "keepalive_job") := by
  decide

/-- C7 (amended): in this version `DataProtoDest_Received` may call the
up-state handler synchronously (per its documented contract) and
`DataProtoDest` has no dedicated pending job for the up transition — its
only `BPending` field is the keepalive job. -/
theorem C7_sync_up_handler :
    dataProtoDest_Received_contract.mayCallUpStateHandler = true ∧
    dataProtoDestFields.filter (fun f => f.type == "BPending") =
      [⟨"keepalive_job", "BPending"⟩] := by
  decide

/-- C8 fails on this version of `DataProto.h`: `DataProtoDest` does carry a
`dest_id` field (of type `peerid_t`). -/
theorem C8_counterexample :
    (⟨"dest_id", "peerid_t"⟩ : CField) ∈ dataProtoDestFields := by decide

/-- C8 (amended): in this repository `DataProto.h` has the older shape —
both the destination object `DataProtoDest` and the local source
`DataProtoLocalSource` carry a `dest_id : peerid_t` field. -/
theorem C8_both_carry_dest_id :
    (⟨"dest_id", "peerid_t"⟩ : CField) ∈ dataProtoDestFields ∧
    (⟨"dest_id", "peerid_t"⟩ : CField) ∈ dataProtoLocalSourceFields := by decide

end DataProtoModel

namespace FPA

theorem chunksOfAux_small {fid m1 off : Nat} {bytes : List Nat}
    (h : bytes.length ≤ m1 + 1) :
    chunksOfAux fid m1 off bytes = [⟨fid, off, bytes, true⟩] := by
  rw [chunksOfAux]
  simp [h]

theorem chunksOfAux_big {fid m1 off : Nat} {bytes : List Nat}
    (h : ¬(bytes.length ≤ m1 + 1)) :
    chunksOfAux fid m1 off bytes =
      ⟨fid, off, bytes.take (m1 + 1), false⟩ ::
        chunksOfAux fid m1 (off + (m1 + 1)) (bytes.drop (m1 + 1)) := by
  rw [chunksOfAux]
  simp [h]

theorem chunksOfAux_length_pos (fid m1 off : Nat) (bytes : List Nat) :
    0 < (chunksOfAux fid m1 off bytes).length := by
  by_cases h : bytes.length ≤ m1 + 1
  · rw [chunksOfAux_small h]
    simp
  · rw [chunksOfAux_big h]
    simp

theorem chunksOfAux_facts (fid m1 : Nat) :
    ∀ n off bytes, bytes.length ≤ n →
      (∀ c ∈ chunksOfAux fid m1 off bytes,
        c.frameId = fid ∧ off ≤ c.chunkStart ∧
        (c.isLast = false → c.data.length = m1 + 1)) ∧
      sumLen (chunksOfAux fid m1 off bytes) = bytes.length ∧
      declaredLen (chunksOfAux fid m1 off bytes) = off + bytes.length ∧
      hasLast (chunksOfAux fid m1 off bytes) = true := by
  intro n
  induction n with
  | zero =>
      intro off bytes hb
      have hbe : bytes = [] := List.length_eq_zero.mp (Nat.le_zero.mp hb)
      subst hbe
      rw [chunksOfAux_small (by simp)]
      refine ⟨?_, by simp [sumLen], by simp [declaredLen], by simp [hasLast]⟩
      intro c hc
      rcases List.mem_singleton.mp hc with rfl
      simp
  | succ n ih =>
      intro off bytes hb
      by_cases h : bytes.length ≤ m1 + 1
      · rw [chunksOfAux_small h]
        refine ⟨?_, by simp [sumLen], by simp [declaredLen], by simp [hasLast]⟩
        intro c hc
        rcases List.mem_singleton.mp hc with rfl
        simp
      · rw [chunksOfAux_big h]
        have hdrop : (bytes.drop (m1 + 1)).length ≤ n := by
          simp only [List.length_drop]
          omega
        obtain ⟨ih1, ih2, ih3, ih4⟩ := ih (off + (m1 + 1)) (bytes.drop (m1 + 1)) hdrop
        have htake : (bytes.take (m1 + 1)).length = m1 + 1 := by
          simp only [List.length_take]
          omega
        refine ⟨?_, ?_, ?_, ?_⟩
        · intro c hc
          rcases List.mem_cons.mp hc with rfl | hc2
          · refine ⟨rfl, le_refl _, ?_⟩
            intro
            exact htake
          · obtain ⟨ha, hb2, hc3⟩ := ih1 c hc2
            exact ⟨ha, by omega, hc3⟩
        · simp only [sumLen, List.map_cons, List.sum_cons] at *
          rw [ih2, htake]
          simp only [List.length_drop]
          omega
        · simp only [declaredLen, List.filter_cons] at *
          rw [if_neg (by simp)]
          rw [ih3]
          simp only [List.length_drop]
          omega
        · simp only [hasLast, List.any_cons] at *
          rw [ih4]
          simp

theorem chunksOf_frameId {fid m1 : Nat} {bytes : List Nat} :
    ∀ c ∈ chunksOf fid m1 bytes, c.frameId = fid := by
  intro c hc
  exact ((chunksOfAux_facts fid m1 bytes.length 0 bytes (le_refl _)).1 c hc).1

theorem chunksOf_complete (fid m1 : Nat) (bytes : List Nat) :
    complete (chunksOf fid m1 bytes) = true := by
  obtain ⟨_, h2, h3, h4⟩ := chunksOfAux_facts fid m1 bytes.length 0 bytes (le_refl _)
  simp only [complete, chunksOf, h4, Bool.true_and, beq_iff_eq]
  rw [h2, h3]
  omega

theorem chunksOf_length_pos (fid m1 : Nat) (bytes : List Nat) :
    0 < (chunksOf fid m1 bytes).length :=
  chunksOfAux_length_pos fid m1 0 bytes

end FPA

namespace FPA

theorem chunksOfAux_unique_last (fid m1 : Nat) :
    ∀ n off bytes, bytes.length ≤ n →
      ∃ lc : Chunk, (chunksOfAux fid m1 off bytes).filter (fun c => c.isLast) = [lc] ∧
        lc.chunkStart + lc.data.length = off + bytes.length := by
  intro n
  induction n with
  | zero =>
      intro off bytes hb
      have hbe : bytes = [] := List.length_eq_zero.mp (Nat.le_zero.mp hb)
      subst hbe
      rw [chunksOfAux_small (by simp)]
      exact ⟨⟨fid, off, [], true⟩, by simp, by simp⟩
  | succ n ih =>
      intro off bytes hb
      by_cases h : bytes.length ≤ m1 + 1
      · rw [chunksOfAux_small h]
        exact ⟨⟨fid, off, bytes, true⟩, by simp, by simp⟩
      · rw [chunksOfAux_big h]
        have hdrop : (bytes.drop (m1 + 1)).length ≤ n := by
          simp only [List.length_drop]
          omega
        obtain ⟨lc, hlc1, hlc2⟩ := ih (off + (m1 + 1)) (bytes.drop (m1 + 1)) hdrop
        refine ⟨lc, ?_, ?_⟩
        · rw [List.filter_cons, if_neg (by simp)]
          exact hlc1
        · simp only [List.length_drop] at hlc2
          omega

theorem chunksOf_unique_last (fid m1 : Nat) (bytes : List Nat) :
    ∃ lc : Chunk, (chunksOf fid m1 bytes).filter (fun c => c.isLast) = [lc] ∧
      lc.chunkStart + lc.data.length = bytes.length := by
  obtain ⟨lc, h1, h2⟩ := chunksOfAux_unique_last fid m1 bytes.length 0 bytes (le_refl _)
  exact ⟨lc, h1, by simpa using h2⟩

theorem hasLast_perm {cs cs' : List Chunk} (h : cs.Perm cs') :
    hasLast cs = hasLast cs' := by
  cases h1 : hasLast cs' with
  | false =>
      rw [hasLast, List.any_eq_false]
      rw [hasLast, List.any_eq_false] at h1
      intro x hx
      exact h1 x (h.mem_iff.mp hx)
  | true =>
      rw [hasLast, List.any_eq_true]
      rw [hasLast, List.any_eq_true] at h1
      obtain ⟨c, hc, hcl⟩ := h1
      exact ⟨c, h.mem_iff.mpr hc, hcl⟩

theorem sumLen_perm {cs cs' : List Chunk} (h : cs.Perm cs') :
    sumLen cs = sumLen cs' := by
  simp only [sumLen]
  exact (h.map (fun c => c.data.length)).sum_eq

theorem declaredLen_perm {cs cs' : List Chunk} (h : cs.Perm cs') :
    declaredLen cs = declaredLen cs' := by
  simp only [declaredLen]
  exact ((h.filter (fun c => c.isLast)).map (fun c => c.chunkStart + c.data.length)).sum_eq

theorem complete_perm {cs cs' : List Chunk} (h : cs.Perm cs') :
    complete cs = complete cs' := by
  simp only [complete, hasLast_perm h, sumLen_perm h, declaredLen_perm h]

theorem sublist_complement {α : Type} {l₁ l₂ : List α} (h : l₁.Sublist l₂) :
    ∃ l₃, l₂.Perm (l₁ ++ l₃) := by
  induction h with
  | slnil => exact ⟨[], by simp⟩
  | @cons l₁ l₂ a _ ih =>
      obtain ⟨l₃, hp⟩ := ih
      exact ⟨a :: l₃, (hp.cons a).trans (List.perm_middle).symm⟩
  | @cons₂ l₁ l₂ a _ ih =>
      obtain ⟨l₃, hp⟩ := ih
      exact ⟨l₃, hp.cons a⟩

theorem sumLen_append (cs cs' : List Chunk) :
    sumLen (cs ++ cs') = sumLen cs + sumLen cs' := by
  simp [sumLen]

/-- A complete sub-multiset of a frame's chunk stream is the whole stream:
the assembler's sum/length completeness test cannot fire early. -/
theorem complete_subperm_perm {fid m1 : Nat} {bytes : List Nat} {cs : List Chunk}
    (hsp : cs.Subperm (chunksOf fid m1 bytes)) (hc : complete cs = true) :
    cs.Perm (chunksOf fid m1 bytes) := by
  obtain ⟨l, hlp, hls⟩ := hsp
  obtain ⟨rest, hrest⟩ := sublist_complement hls
  obtain ⟨lc, hlcf, hlclen⟩ := chunksOf_unique_last fid m1 bytes
  have hcl : complete l = true := by rw [complete_perm hlp]; exact hc
  have hcl2 := hcl
  simp only [complete, Bool.and_eq_true, beq_iff_eq] at hcl2
  obtain ⟨hhl, hsuml⟩ := hcl2
  -- the last chunks of l form a nonempty sublist of [lc]
  have hfl : (l.filter (fun c => c.isLast)).Sublist [lc] := by
    rw [← hlcf]
    exact hls.filter _
  have hflne : l.filter (fun c => c.isLast) ≠ [] := by
    obtain ⟨c, hcmem, hcl2⟩ := List.any_eq_true.mp hhl
    intro hnil
    have : c ∈ l.filter (fun c => c.isLast) := List.mem_filter.mpr ⟨hcmem, hcl2⟩
    rw [hnil] at this
    cases this
  have hfleq : l.filter (fun c => c.isLast) = [lc] := by
    cases hsl : l.filter (fun c => c.isLast) with
    | nil => exact absurd hsl hflne
    | cons x xs =>
        rw [hsl] at hfl
        cases hfl with
        | cons _ hfl2 => simp at hfl2
        | cons₂ _ hfl2 =>
            have : xs = [] := List.sublist_nil.mp hfl2
            rw [this]
  -- declared length of l is the true frame length
  have hdecl : declaredLen l = bytes.length := by
    simp only [declaredLen, hfleq]
    simp [hlclen]
  have hsum : sumLen l = bytes.length := by
    rw [hsuml, hdecl]
  -- the complement has total length 0
  obtain ⟨_, hCF2, _, _⟩ := chunksOfAux_facts fid m1 bytes.length 0 bytes (le_refl _)
  have hsumCF : sumLen (chunksOf fid m1 bytes) = bytes.length := hCF2
  have hsplit : sumLen (chunksOf fid m1 bytes) = sumLen l + sumLen rest := by
    rw [sumLen_perm hrest, sumLen_append]
  have hrest0 : sumLen rest = 0 := by omega
  -- the complement is empty
  have hrestnil : rest = [] := by
    cases hr : rest with
    | nil => rfl
    | cons c rest' =>
        exfalso
        have hcCF : c ∈ chunksOf fid m1 bytes := by
          refine hrest.mem_iff.mpr ?_
          rw [hr]
          simp
        have hc0 : c.data.length = 0 := by
          rw [hr] at hrest0
          simp only [sumLen, List.map_cons, List.sum_cons] at hrest0
          omega
        obtain ⟨hCF1, _, _, _⟩ := chunksOfAux_facts fid m1 bytes.length 0 bytes (le_refl _)
        have hclast : c.isLast = true := by
          by_cases hcis : c.isLast = true
          · exact hcis
          · have := (hCF1 c hcCF).2.2 (by simpa using hcis)
            omega
        -- two distinct positions with isLast in chunksOf: contradiction with unique last
        have hperm : ((chunksOf fid m1 bytes).filter (fun c => c.isLast)).Perm
            ((l ++ rest).filter (fun c => c.isLast)) := hrest.filter _
        have hlen1 : ((chunksOf fid m1 bytes).filter (fun c => c.isLast)).length = 1 := by
          rw [hlcf]
          rfl
        have hlen2 : 2 ≤ ((l ++ rest).filter (fun c => c.isLast)).length := by
          rw [List.filter_append, hfleq, hr, List.filter_cons, if_pos (by simpa using hclast)]
          simp
        have := hperm.length_eq
        omega
  rw [hrestnil] at hrest
  simp only [List.append_nil] at hrest
  exact hlp.symm.trans hrest.symm

end FPA

namespace FPA

theorem find?_eq_some_of_unique {α : Type} {p : α → Bool} {l : List α} {a : α}
    (ha : a ∈ l) (hpa : p a = true) (huniq : ∀ b ∈ l, p b = true → b = a) :
    l.find? p = some a := by
  induction l with
  | nil => cases ha
  | cons x xs ih =>
      by_cases hx : p x = true
      · have hxa : x = a := huniq x (List.mem_cons_self x xs) hx
        subst hxa
        exact List.find?_cons_of_pos _ hx
      · rw [List.find?_cons_of_neg _ (by simpa using hx)]
        have ha2 : a ∈ xs := by
          rcases List.mem_cons.mp ha with rfl | h2
          · exact absurd hpa hx
          · exact h2
        exact ih ha2 (fun b hb hpb => huniq b (List.mem_cons_of_mem x hb) hpb)

theorem assembleFrom_correct (fid m1 : Nat) :
    ∀ fuel off bytes (cs extra : List Chunk),
      cs.Perm (chunksOfAux fid m1 off bytes ++ extra) →
      (∀ e ∈ extra, e.chunkStart < off) →
      (chunksOfAux fid m1 off bytes).length ≤ fuel →
      assembleFrom cs fuel off = bytes := by
  intro fuel
  induction fuel with
  | zero =>
      intro off bytes cs extra _ _ hf
      exact absurd hf (by
        have := chunksOfAux_length_pos fid m1 off bytes
        omega)
  | succ fuel ih =>
      intro off bytes cs extra hperm hextra hflen
      by_cases h : bytes.length ≤ m1 + 1
      · rw [chunksOfAux_small h] at hperm
        have hc0mem : (⟨fid, off, bytes, true⟩ : Chunk) ∈ cs :=
          hperm.mem_iff.mpr (by simp)
        have hfind : cs.find? (fun c => c.chunkStart == off) =
            some ⟨fid, off, bytes, true⟩ := by
          refine find?_eq_some_of_unique hc0mem (by simp) ?_
          intro b hb hpb
          have hb2 := hperm.mem_iff.mp hb
          rcases List.mem_cons.mp (by simpa using hb2) with rfl | h2
          · rfl
          · have := hextra b h2
            have hbeq : b.chunkStart = off := by simpa using hpb
            omega
        simp only [assembleFrom, hfind]
        simp
      · rw [chunksOfAux_big h] at hperm hflen
        have hfacts := (chunksOfAux_facts fid m1 (bytes.drop (m1 + 1)).length
          (off + (m1 + 1)) (bytes.drop (m1 + 1)) (le_refl _)).1
        have hc0mem : (⟨fid, off, bytes.take (m1 + 1), false⟩ : Chunk) ∈ cs :=
          hperm.mem_iff.mpr (by simp)
        have hfind : cs.find? (fun c => c.chunkStart == off) =
            some ⟨fid, off, bytes.take (m1 + 1), false⟩ := by
          refine find?_eq_some_of_unique hc0mem (by simp) ?_
          intro b hb hpb
          have hb2 := hperm.mem_iff.mp hb
          have hbeq : b.chunkStart = off := by simpa using hpb
          rcases (by simpa using hb2 :
              b = (⟨fid, off, bytes.take (m1 + 1), false⟩ : Chunk) ∨
              b ∈ chunksOfAux fid m1 (off + (m1 + 1)) (bytes.drop (m1 + 1)) ∨
              b ∈ extra) with rfl | h3 | h3
          · rfl
          · have := (hfacts b h3).2.1
            omega
          · have := hextra b h3
            omega
        have htake : (bytes.take (m1 + 1)).length = m1 + 1 := by
          simp only [List.length_take]
          omega
        have hrec : assembleFrom cs fuel (off + (m1 + 1)) = bytes.drop (m1 + 1) := by
          refine ih (off + (m1 + 1)) (bytes.drop (m1 + 1)) cs
            (⟨fid, off, bytes.take (m1 + 1), false⟩ :: extra) ?_ ?_ ?_
          · refine hperm.trans ?_
            exact (List.perm_middle).symm
          · intro e he
            rcases List.mem_cons.mp he with rfl | h2
            · simp
            · have := hextra e h2
              omega
          · simp only [List.length_cons] at hflen
            omega
        have hfin : assembleFrom cs (fuel + 1) off =
            bytes.take (m1 + 1) ++ assembleFrom cs fuel (off + (m1 + 1)) := by
          simp [assembleFrom, hfind, htake]
        rw [hfin, hrec]
        exact List.take_append_drop (m1 + 1) bytes

theorem assembleBytes_correct {fid m1 : Nat} {bytes : List Nat} {cs : List Chunk}
    (h : cs.Perm (chunksOf fid m1 bytes)) : assembleBytes cs = bytes := by
  have hlen : cs.length = (chunksOf fid m1 bytes).length := h.length_eq
  refine assembleFrom_correct fid m1 cs.length 0 bytes cs [] ?_ (by simp) ?_
  · simpa using h
  · rw [hlen]
    exact le_refl _

end FPA

namespace FPA

theorem gotOf_append (P Q : List Chunk) (fid : Nat) :
    gotOf (P ++ Q) fid = gotOf P fid ++ gotOf Q fid := by
  simp [gotOf]

theorem gotOf_perm {P Q : List Chunk} (h : P.Perm Q) (fid : Nat) :
    (gotOf P fid).Perm (gotOf Q fid) := h.filter _

theorem gotOf_subperm {P Q : List Chunk} (h : P.Subperm Q) (fid : Nat) :
    (gotOf P fid).Subperm (gotOf Q fid) := by
  obtain ⟨l, hlp, hls⟩ := h
  exact ⟨l.filter (fun c => c.frameId == fid), hlp.filter _, hls.filter _⟩

theorem gotOf_block_self {fid m1 : Nat} {bytes : List Nat} :
    gotOf (chunksOf fid m1 bytes) fid = chunksOf fid m1 bytes := by
  rw [gotOf, List.filter_eq_self]
  intro c hc
  simp [chunksOf_frameId c hc]

theorem gotOf_block_other {fid fid' m1 : Nat} {bytes : List Nat} (h : fid' ≠ fid) :
    gotOf (chunksOf fid' m1 bytes) fid = [] := by
  rw [gotOf, List.filter_eq_nil_iff]
  intro c hc
  simp [chunksOf_frameId c hc, h]

theorem disassemblerStream_cons (m1 : Nat) (fb : Nat × List Nat)
    (fs : List (Nat × List Nat)) :
    disassemblerStream m1 (fb :: fs) =
      chunksOf fb.1 m1 fb.2 ++ disassemblerStream m1 fs := by
  simp [disassemblerStream]

theorem gotOf_stream_not_mem {m1 fid : Nat} {frames : List (Nat × List Nat)}
    (h : fid ∉ frames.map Prod.fst) :
    gotOf (disassemblerStream m1 frames) fid = [] := by
  induction frames with
  | nil => rfl
  | cons fb fs ih =>
      simp only [List.map_cons, List.mem_cons] at h
      push_neg at h
      rw [disassemblerStream_cons, gotOf_append,
        gotOf_block_other (Ne.symm h.1), ih h.2]
      rfl

theorem gotOf_stream_mem {m1 : Nat} {frames : List (Nat × List Nat)}
    (hnd : (frames.map Prod.fst).Nodup) {fid : Nat} {bytes : List Nat}
    (hmem : (fid, bytes) ∈ frames) :
    gotOf (disassemblerStream m1 frames) fid = chunksOf fid m1 bytes := by
  induction frames with
  | nil => cases hmem
  | cons fb fs ih =>
      simp only [List.map_cons, List.nodup_cons] at hnd
      rw [disassemblerStream_cons, gotOf_append]
      rcases List.mem_cons.mp hmem with rfl | h2
      · rw [gotOf_block_self,
          gotOf_stream_not_mem (by simpa using hnd.1)]
        simp
      · have hne : fb.1 ≠ fid := by
          intro hc
          refine hnd.1 ?_
          rw [hc]
          exact List.mem_map.mpr ⟨(fid, bytes), h2, rfl⟩
        rw [gotOf_block_other hne, ih hnd.2 h2]
        simp

theorem mem_stream_fid {m1 : Nat} {frames : List (Nat × List Nat)} {c : Chunk}
    (h : c ∈ disassemblerStream m1 frames) :
    ∃ fb ∈ frames, c.frameId = fb.1 := by
  induction frames with
  | nil => cases h
  | cons fb fs ih =>
      rw [disassemblerStream_cons] at h
      rcases List.mem_append.mp h with h2 | h2
      · exact ⟨fb, List.mem_cons_self fb fs, chunksOf_frameId c h2⟩
      · obtain ⟨fb', hm, he⟩ := ih h2
        exact ⟨fb', List.mem_cons_of_mem fb hm, he⟩

theorem find?_of_filter_singleton {α : Type} {p : α → Bool} {l : List α} {a : α}
    (h : l.filter p = [a]) : l.find? p = some a := by
  induction l with
  | nil => cases h
  | cons x xs ih =>
      by_cases hx : p x = true
      · rw [List.filter_cons, if_pos hx] at h
        obtain ⟨h1, _⟩ := List.cons.inj h
        subst h1
        exact List.find?_cons_of_pos _ hx
      · rw [List.filter_cons, if_neg hx] at h
        rw [List.find?_cons_of_neg _ (by simpa using hx)]
        exact ih h

theorem filter_eraseP_disjoint {α : Type} {p q : α → Bool} {l : List α}
    (h : ∀ x, p x = true → q x = false) :
    (l.eraseP p).filter q = l.filter q := by
  induction l with
  | nil => rfl
  | cons x xs ih =>
      by_cases hx : p x = true
      · rw [List.eraseP_cons, hx]
        simp only [cond_true]
        rw [List.filter_cons, if_neg (by simp [h x hx])]
      · have hxf : p x = false := by simpa using hx
        rw [List.eraseP_cons, hxf]
        simp only [cond_false]
        rw [List.filter_cons, List.filter_cons, ih]

theorem filter_eraseP_self {α : Type} {p : α → Bool} {l : List α} {a : α}
    (h : l.filter p = [a]) : (l.eraseP p).filter p = [] := by
  induction l with
  | nil => rfl
  | cons x xs ih =>
      by_cases hx : p x = true
      · rw [List.filter_cons, if_pos hx] at h
        obtain ⟨_, h2⟩ := List.cons.inj h
        rw [List.eraseP_cons, hx]
        simpa using h2
      · have hxf : p x = false := by simpa using hx
        rw [List.filter_cons, if_neg hx] at h
        rw [List.eraseP_cons, hxf]
        simp only [cond_false]
        rw [List.filter_cons, if_neg hx]
        exact ih h

theorem filter_length_shift_down {α : Type} {l : List α} {a : α} {p q : α → Bool}
    (hnd : l.Nodup) (ha : a ∈ l)
    (hsame : ∀ x ∈ l, x ≠ a → q x = p x)
    (hpa : p a = true) (hqa : q a = false) :
    (l.filter q).length + 1 = (l.filter p).length := by
  induction l with
  | nil => cases ha
  | cons x xs ih =>
      obtain ⟨hx1, hx2⟩ := List.nodup_cons.mp hnd
      rcases List.mem_cons.mp ha with rfl | ha2
      · rw [List.filter_cons, List.filter_cons, if_pos hpa, if_neg (by simp [hqa])]
        have : xs.filter q = xs.filter p := by
          refine List.filter_congr ?_
          intro y hy
          exact hsame y (List.mem_cons_of_mem a hy) (fun hc => hx1 (hc ▸ hy))
        rw [this]
        simp
      · have hx : q x = p x :=
          hsame x (List.mem_cons_self x xs) (fun hc => hx1 (hc ▸ ha2))
        rw [List.filter_cons, List.filter_cons, hx]
        by_cases hpx : p x = true
        · rw [if_pos hpx, if_pos hpx]
          simp only [List.length_cons]
          have := ih hx2 ha2 (fun y hy hne => hsame y (List.mem_cons_of_mem x hy) hne)
          omega
        · rw [if_neg hpx, if_neg hpx]
          exact ih hx2 ha2 (fun y hy hne => hsame y (List.mem_cons_of_mem x hy) hne)

theorem filter_length_shift_up {α : Type} {l : List α} {a : α} {p q : α → Bool}
    (hnd : l.Nodup) (ha : a ∈ l)
    (hsame : ∀ x ∈ l, x ≠ a → q x = p x)
    (hpa : p a = false) (hqa : q a = true) :
    (l.filter q).length = (l.filter p).length + 1 := by
  have := filter_length_shift_down (p := q) (q := p) hnd ha
    (fun x hx hne => (hsame x hx hne).symm) hqa hpa
  omega

end FPA

namespace FPA

/-- A delivered sequence of degree ≤ `D` is a permutation of the in-order
stream (together with whatever is still buffered). -/
theorem bufSort_perm {D : Nat} :
    ∀ {d B s : List Chunk}, BufSort D d B s → (B ++ d).Perm s := by
  intro d B s h
  induction h with
  | done => simp
  | @read d B s c _ _ ih => exact List.perm_middle.trans ih
  | @emitBuf d B s c hmem _ ih =>
      have h1 : B.Perm (c :: B.erase c) := List.perm_cons_erase hmem
      exact (h1.append_right d).trans (ih.cons c)
  | @emitIn d B s c _ ih => exact List.perm_middle.trans (ih.cons c)

/-- After any number of reads, what has been read so far splits into an
emitted prefix of the in-order stream plus at most `D` buffered chunks. -/
theorem bufSort_prefix {D : Nat} :
    ∀ {d B s : List Chunk}, BufSort D d B s → B.length ≤ D →
      ∀ n : Nat, ∃ P0 B' su : List Chunk,
        (P0 ++ B').Perm (B ++ d.take n) ∧ B'.length ≤ D ∧ s = P0 ++ su := by
  intro d B s h
  induction h with
  | done =>
      intro hB n
      exact ⟨[], [], [], by simp, by simp, rfl⟩
  | @read d B s c hle sub ih =>
      intro hB n
      cases n with
      | zero => exact ⟨[], B, s, by simp, hB, rfl⟩
      | succ k =>
          obtain ⟨P0, B', su, h1, h2, h3⟩ := ih (by simpa using hle) k
          refine ⟨P0, B', su, ?_, h2, h3⟩
          simp only [List.take_succ_cons]
          exact h1.trans (List.perm_middle).symm
  | @emitBuf d B s c hmem sub ih =>
      intro hB n
      obtain ⟨P0, B', su, h1, h2, h3⟩ := ih (le_trans (List.length_erase_le _ _) hB) n
      refine ⟨c :: P0, B', su, ?_, h2, by rw [h3]; rfl⟩
      refine (h1.cons c).trans ?_
      have hB2 : (c :: B.erase c).Perm B := (List.perm_cons_erase hmem).symm
      exact hB2.append_right _
  | @emitIn d B s c sub ih =>
      intro hB n
      cases n with
      | zero => exact ⟨[], B, c :: s, by simp, hB, rfl⟩
      | succ k =>
          obtain ⟨P0, B', su, h1, h2, h3⟩ := ih hB k
          refine ⟨c :: P0, B', su, ?_, h2, by rw [h3]; rfl⟩
          simp only [List.take_succ_cons]
          exact (h1.cons c).trans (List.perm_middle).symm

theorem map_eq_append_split {α β : Type} {f : α → β} :
    ∀ {l : List α} {l₁ l₂ : List β}, l.map f = l₁ ++ l₂ →
      ∃ a₁ a₂, l = a₁ ++ a₂ ∧ a₁.map f = l₁ ∧ a₂.map f = l₂ := by
  intro l
  induction l with
  | nil =>
      intro l₁ l₂ h
      have h1 : l₁ = [] := by
        cases l₁ with
        | nil => rfl
        | cons x xs => simp at h
      subst h1
      exact ⟨[], [], by simp, rfl, by simpa using h.symm⟩
  | cons a l ih =>
      intro l₁ l₂ h
      cases l₁ with
      | nil =>
          exact ⟨[], a :: l, by simp, rfl, by simpa using h⟩
      | cons b l₁ =>
          simp only [List.map_cons, List.cons_append, List.cons.injEq] at h
          obtain ⟨a₁, a₂, h1, h2, h3⟩ := ih h.2
          exact ⟨a :: a₁, a₂, by simp [h1], by simp [h.1, h2], h3⟩

theorem prefix_of_flatten {α : Type} :
    ∀ (blocks : List (List α)) (P0 su : List α), blocks.flatten = P0 ++ su →
      ∃ bsa bsb p, blocks = bsa ++ bsb ∧ P0 = bsa.flatten ++ p ∧
        ((bsb = [] ∧ p = []) ∨ ∃ b bsb' q, bsb = b :: bsb' ∧ b = p ++ q) := by
  intro blocks
  induction blocks with
  | nil =>
      intro P0 su h
      simp only [List.flatten_nil] at h
      have h0 : P0 = [] := by
        cases P0 with
        | nil => rfl
        | cons x xs => simp at h
      exact ⟨[], [], [], by simp, by simp [h0], Or.inl ⟨rfl, rfl⟩⟩
  | cons b bs ih =>
      intro P0 su h
      rw [List.flatten_cons] at h
      rcases List.append_eq_append_iff.mp h with ⟨t, ht1, ht2⟩ | ⟨q, hq1, hq2⟩
      · obtain ⟨bsa, bsb, p, h1, h2, h3⟩ := ih t su ht2
        refine ⟨b :: bsa, bsb, p, by simp [h1], ?_, h3⟩
        rw [ht1, h2]
        simp
      · exact ⟨[], b :: bs, P0, by simp, by simp, Or.inr ⟨b, bs, q, rfl, hq1⟩⟩

end FPA

namespace FPA

/-- Counting bound: if the processed chunks `T` split into an in-order
stream prefix `P0` plus buffered chunks `B'`, then at most `|B'| + 1` frames
are partially received (the one frame split by the prefix boundary, plus at
most one frame per buffered chunk). -/
theorem partial_count_bound {m1 : Nat} {frames : List (Nat × List Nat)}
    (hnd : (frames.map Prod.fst).Nodup)
    {T P0 B' su : List Chunk}
    (hT : T.Subperm (disassemblerStream m1 frames))
    (hTp : T.Perm (P0 ++ B'))
    (hS : disassemblerStream m1 frames = P0 ++ su) :
    (frames.filter (partialIn m1 T)).length ≤ B'.length + 1 := by
  have hS2 : (frames.map (fun fb => chunksOf fb.1 m1 fb.2)).flatten = P0 ++ su := hS
  obtain ⟨bsa, bsb, p, hblocks, hP0, hdisj⟩ :=
    prefix_of_flatten (frames.map (fun fb => chunksOf fb.1 m1 fb.2)) P0 su hS2
  obtain ⟨fa, fbz, hframes, hfa, hfbz⟩ := map_eq_append_split hblocks
  have hnd2 := hnd
  rw [hframes, List.map_append, List.nodup_append] at hnd2
  obtain ⟨hndfa, hndfbz, hdisj2⟩ := hnd2
  have hbsa : bsa.flatten = disassemblerStream m1 fa := by
    rw [← hfa]
    rfl
  -- per-frame facts
  have hgotT : ∀ fid, (gotOf T fid).Perm (gotOf P0 fid ++ gotOf B' fid) := by
    intro fid
    have := gotOf_perm hTp fid
    rwa [gotOf_append] at this
  have hgotS : ∀ fb ∈ frames, (gotOf T fb.1).Subperm (chunksOf fb.1 m1 fb.2) := by
    intro fb hfb
    have h1 := gotOf_subperm hT fb.1
    rwa [gotOf_stream_mem hnd (by rw [Prod.mk.eta]; exact hfb)] at h1
  rcases hdisj with ⟨hbsbnil, hpnil⟩ | ⟨b, bsb', q, hbsb, hbq⟩
  · -- the prefix covers the whole stream: no frame is partial
    have hfbznil : fbz = [] := by
      rw [hbsbnil] at hfbz
      exact List.map_eq_nil_iff.mp hfbz
    have hfaframes : fa = frames := by rw [hframes, hfbznil, List.append_nil]
    have hfl : frames.filter (partialIn m1 T) = [] := by
      rw [List.filter_eq_nil_iff]
      intro fb hfb
      have hgP0 : gotOf P0 fb.1 = chunksOf fb.1 m1 fb.2 := by
        rw [hP0, hpnil, List.append_nil, hbsa, hfaframes]
        exact gotOf_stream_mem hnd (by rw [Prod.mk.eta]; exact hfb)
      have hlen1 : (chunksOf fb.1 m1 fb.2).length ≤ (gotOf T fb.1).length := by
        have := (hgotT fb.1).length_eq
        rw [hgP0] at this
        simp only [List.length_append] at this
        omega
      have hlen2 : (gotOf T fb.1).length ≤ (chunksOf fb.1 m1 fb.2).length :=
        (hgotS fb hfb).length_le
      simp only [partialIn, decide_eq_true_eq]
      push_neg
      intro _
      omega
    rw [hfl]
    simp
  · -- the prefix splits one frame
    cases fbz with
    | nil => simp at hfbz; rw [hbsb] at hfbz; cases hfbz
    | cons fhead ftail =>
        rw [hbsb] at hfbz
        simp only [List.map_cons, List.cons.injEq] at hfbz
        obtain ⟨hfhead, hftail⟩ := hfbz
        -- p's chunks belong to the split frame fhead
        have hpfid : ∀ c ∈ p, c.frameId = fhead.1 := by
          intro c hc
          have hcb : c ∈ b := by
            rw [hbq]
            exact List.mem_append_left q hc
          rw [← hfhead] at hcb
          exact chunksOf_frameId c hcb
        -- the partial frames' ids sit inside fhead.1 :: B'.map frameId
        have hsubset : ∀ fid0 ∈ (frames.filter (partialIn m1 T)).map Prod.fst,
            fid0 ∈ fhead.1 :: B'.map Chunk.frameId := by
          intro fid0 hfid0
          obtain ⟨fb, hfbmem, rfl⟩ := List.mem_map.mp hfid0
          obtain ⟨hfbframes, hfbpart⟩ := List.mem_filter.mp hfbmem
          have hpart := (decide_eq_true_eq).mp hfbpart
          rw [hframes] at hfbframes
          rcases List.mem_append.mp hfbframes with hfba | hfbz2
          · -- fb before the split frame: it is fully received, contradiction
            exfalso
            have hne : fhead.1 ≠ fb.1 := by
              intro hc
              refine hdisj2 (List.mem_map.mpr ⟨fb, hfba, rfl⟩) ?_
              rw [← hc]
              exact List.mem_map.mpr ⟨fhead, List.mem_cons_self _ _, rfl⟩
            have hgp : gotOf p fb.1 = [] := by
              rw [gotOf, List.filter_eq_nil_iff]
              intro c hc
              simp [hpfid c hc, hne]
            have hgP0 : gotOf P0 fb.1 = chunksOf fb.1 m1 fb.2 := by
              rw [hP0, gotOf_append, hgp, List.append_nil, hbsa]
              exact gotOf_stream_mem hndfa (by rw [Prod.mk.eta]; exact hfba)
            have hlen1 : (chunksOf fb.1 m1 fb.2).length ≤ (gotOf T fb.1).length := by
              have := (hgotT fb.1).length_eq
              rw [hgP0] at this
              simp only [List.length_append] at this
              omega
            have hlen2 : (gotOf T fb.1).length ≤ (chunksOf fb.1 m1 fb.2).length := by
              refine (hgotS fb ?_).length_le
              rw [hframes]
              exact List.mem_append_left _ hfba
            omega
          · rcases List.mem_cons.mp hfbz2 with rfl | hfbtail
            · exact List.mem_cons_self _ _
            · -- fb after the split frame: all its chunks are buffered
              have hfidfa : fb.1 ∉ fa.map Prod.fst := by
                intro hc
                exact hdisj2 hc (List.mem_map.mpr ⟨fb, hfbz2, rfl⟩)
              have hne : fhead.1 ≠ fb.1 := by
                have h5 := hndfbz
                rw [List.map_cons, List.nodup_cons] at h5
                intro hc
                exact h5.1 (hc ▸ List.mem_map.mpr ⟨fb, hfbtail, rfl⟩)
              have hgp : gotOf p fb.1 = [] := by
                rw [gotOf, List.filter_eq_nil_iff]
                intro c hc
                simp [hpfid c hc, hne]
              have hgP0 : gotOf P0 fb.1 = [] := by
                rw [hP0, gotOf_append, hgp, List.append_nil, hbsa]
                exact gotOf_stream_not_mem hfidfa
              have hgotTB : (gotOf T fb.1).Perm (gotOf B' fb.1) := by
                have := hgotT fb.1
                rwa [hgP0, List.nil_append] at this
              have hne0 : gotOf B' fb.1 ≠ [] := by
                intro hc
                rw [hc] at hgotTB
                have hlen := hgotTB.length_eq
                simp only [List.length_nil] at hlen
                omega
              obtain ⟨c, hcmem⟩ := List.exists_mem_of_ne_nil _ hne0
              obtain ⟨hcB, hcfid⟩ := List.mem_filter.mp hcmem
              refine List.mem_cons_of_mem _ ?_
              refine List.mem_map.mpr ⟨c, hcB, ?_⟩
              simpa using hcfid
        -- conclude by counting distinct ids
        have hlnd : ((frames.filter (partialIn m1 T)).map Prod.fst).Nodup :=
          hnd.sublist ((List.filter_sublist _).map _)
        have hsp := List.subperm_of_subset hlnd hsubset
        have hlen := hsp.length_le
        simp only [List.length_map, List.length_cons] at hlen ⊢
        omega

end FPA

namespace FPA

theorem gotOf_snoc_other {P : List Chunk} {c : Chunk} {fid : Nat}
    (h : fid ≠ c.frameId) : gotOf (P ++ [c]) fid = gotOf P fid := by
  rw [gotOf_append]
  have h2 : gotOf [c] fid = [] := by
    simp [gotOf, List.filter_cons, Ne.symm h]
  rw [h2, List.append_nil]

theorem gotOf_snoc_self {P : List Chunk} {c : Chunk} :
    gotOf (P ++ [c]) c.frameId = gotOf P c.frameId ++ [c] := by
  rw [gotOf_append]
  have h2 : gotOf [c] c.frameId = [c] := by simp [gotOf]
  rw [h2]

theorem subperm_perm_of_length {α : Type} {l₁ l₂ : List α}
    (h : l₁.Subperm l₂) (hl : l₂.length ≤ l₁.length) : l₁.Perm l₂ := by
  obtain ⟨l, hp, hs⟩ := h
  have h1 : l.length = l₁.length := hp.length_eq
  have h2 : l = l₂ := hs.eq_of_length_le (by
    have := hs.length_le
    omega)
  rw [← h2]
  exact hp.symm

theorem Inv_intro (m1 : Nat) (frames : List (Nat × List Nat)) (slots : List Slot)
    (emitted : List (Nat × List Nat)) (P : List Chunk)
    (h1 : ∀ fb ∈ frames,
      ((gotOf P fb.1).length = 0 →
          slots.filter (fun sl => sl.frameId == fb.1) = []) ∧
      (0 < (gotOf P fb.1).length →
          (gotOf P fb.1).length < (chunksOf fb.1 m1 fb.2).length →
          ∃ cs, slots.filter (fun sl => sl.frameId == fb.1) = [⟨fb.1, cs⟩] ∧
            cs.Perm (gotOf P fb.1)) ∧
      ((gotOf P fb.1).length = (chunksOf fb.1 m1 fb.2).length →
          slots.filter (fun sl => sl.frameId == fb.1) = []))
    (h2 : ∀ sl ∈ slots, sl.frameId ∈ frames.map Prod.fst)
    (h3 : ∀ fb ∈ frames,
      emitted.count (fb.1, fb.2) =
        (if (gotOf P fb.1).length = (chunksOf fb.1 m1 fb.2).length then 1 else 0))
    (h4 : ∀ x ∈ emitted, x ∈ frames)
    (h5 : slots.length = (frames.filter (partialIn m1 P)).length) :
    Inv m1 frames ⟨slots, emitted⟩ P :=
  ⟨h1, h2, h3, h4, h5⟩

end FPA

namespace FPA

theorem processChunk_found_complete {cap : Nat} {st : AsmState} {c : Chunk} {sl : Slot}
    (hfind : st.slots.find? (fun sl => sl.frameId == c.frameId) = some sl)
    (hcomp : complete (sl.chunks ++ [c]) = true) :
    processChunk cap st c =
      ⟨st.slots.eraseP (fun sl => sl.frameId == c.frameId),
       st.emitted ++ [(sl.frameId, assembleBytes (sl.chunks ++ [c]))]⟩ := by
  simp [processChunk, hfind, hcomp]

theorem processChunk_found_incomplete {cap : Nat} {st : AsmState} {c : Chunk} {sl : Slot}
    (hfind : st.slots.find? (fun sl => sl.frameId == c.frameId) = some sl)
    (hcomp : complete (sl.chunks ++ [c]) = false) :
    processChunk cap st c =
      ⟨st.slots.eraseP (fun sl => sl.frameId == c.frameId) ++ [⟨sl.frameId, sl.chunks ++ [c]⟩],
       st.emitted⟩ := by
  simp [processChunk, hfind, hcomp]

theorem processChunk_new_complete {cap : Nat} {st : AsmState} {c : Chunk}
    (hfind : st.slots.find? (fun sl => sl.frameId == c.frameId) = none)
    (hlen : st.slots.length < cap)
    (hcomp : complete [c] = true) :
    processChunk cap st c = ⟨st.slots, st.emitted ++ [(c.frameId, assembleBytes [c])]⟩ := by
  simp [processChunk, hfind, hlen, hcomp]

theorem processChunk_new_incomplete {cap : Nat} {st : AsmState} {c : Chunk}
    (hfind : st.slots.find? (fun sl => sl.frameId == c.frameId) = none)
    (hlen : st.slots.length < cap)
    (hcomp : complete [c] = false) :
    processChunk cap st c = ⟨st.slots ++ [⟨c.frameId, [c]⟩], st.emitted⟩ := by
  simp [processChunk, hfind, hlen, hcomp]

end FPA

namespace FPA

/-- Processing one more available chunk preserves the assembler invariant,
provided the slot pool is not full. -/
theorem Inv_processChunk {m1 cap : Nat} {frames : List (Nat × List Nat)}
    (hnd : (frames.map Prod.fst).Nodup)
    {st : AsmState} {P : List Chunk} {c : Chunk}
    (hInv : Inv m1 frames st P)
    (hsub : (P ++ [c]).Subperm (disassemblerStream m1 frames))
    (hlen : st.slots.length < cap) :
    Inv m1 frames (processChunk cap st c) (P ++ [c]) := by
  obtain ⟨inv1, inv2, inv3, inv4, inv5⟩ := hInv
  have hframesnd : frames.Nodup := hnd.of_map
  have hcstream : c ∈ disassemblerStream m1 frames := hsub.subset (by simp)
  obtain ⟨fb, hfbmem, hcfid⟩ := mem_stream_fid hcstream
  have huniq : ∀ fb' ∈ frames, fb'.1 = fb.1 → fb' = fb := by
    intro fb' hm he
    exact List.inj_on_of_nodup_map hnd hm hfbmem he
  have hCF : gotOf (disassemblerStream m1 frames) fb.1 = chunksOf fb.1 m1 fb.2 :=
    gotOf_stream_mem hnd (by rw [Prod.mk.eta]; exact hfbmem)
  have hP'sub : (gotOf (P ++ [c]) fb.1).Subperm (chunksOf fb.1 m1 fb.2) := by
    have h1 := gotOf_subperm hsub fb.1
    rwa [hCF] at h1
  have hPstream : P.Subperm (disassemblerStream m1 frames) :=
    (List.sublist_append_left P [c]).subperm.trans hsub
  have hPsub : (gotOf P fb.1).Subperm (chunksOf fb.1 m1 fb.2) := by
    have h1 := gotOf_subperm hPstream fb.1
    rwa [hCF] at h1
  have hgot' : gotOf (P ++ [c]) fb.1 = gotOf P fb.1 ++ [c] := by
    rw [← hcfid]
    exact gotOf_snoc_self
  have hgotother : ∀ fid', fid' ≠ fb.1 → gotOf (P ++ [c]) fid' = gotOf P fid' := by
    intro fid' h
    exact gotOf_snoc_other (by rw [hcfid]; exact h)
  have hpredeq : (fun sl : Slot => sl.frameId == c.frameId) =
      (fun sl : Slot => sl.frameId == fb.1) := by
    funext x
    rw [hcfid]
  have hCFpos := chunksOf_length_pos fb.1 m1 fb.2
  have hgot'len : (gotOf (P ++ [c]) fb.1).length = (gotOf P fb.1).length + 1 := by
    rw [hgot']
    simp
  cases hfind : st.slots.find? (fun sl => sl.frameId == c.frameId) with
  | some sl =>
      have hslmem : sl ∈ st.slots := List.mem_of_find?_eq_some hfind
      have hslfid : sl.frameId = fb.1 := by
        have h1 := List.find?_some hfind
        rw [← hcfid]
        simpa using h1
      obtain ⟨c1, c2, c3⟩ := inv1 fb hfbmem
      have hslinfilter : sl ∈ st.slots.filter (fun sl => sl.frameId == fb.1) :=
        List.mem_filter.mpr ⟨hslmem, by simp [hslfid]⟩
      have hpartial : 0 < (gotOf P fb.1).length ∧
          (gotOf P fb.1).length < (chunksOf fb.1 m1 fb.2).length := by
        by_cases h0 : (gotOf P fb.1).length = 0
        · exfalso
          rw [c1 h0] at hslinfilter
          cases hslinfilter
        by_cases hfull : (gotOf P fb.1).length = (chunksOf fb.1 m1 fb.2).length
        · exfalso
          rw [c3 hfull] at hslinfilter
          cases hslinfilter
        have := hPsub.length_le
        omega
      obtain ⟨cs, hfilter, hcsperm⟩ := c2 hpartial.1 hpartial.2
      have hsleq : sl = ⟨fb.1, cs⟩ := by
        rw [hfilter] at hslinfilter
        simpa using hslinfilter
      have hslch : sl.chunks = cs := by rw [hsleq]
      have hnewperm : (cs ++ [c]).Perm (gotOf (P ++ [c]) fb.1) := by
        rw [hgot']
        exact hcsperm.append_right [c]
      have hnewsub : (cs ++ [c]).Subperm (chunksOf fb.1 m1 fb.2) :=
        hnewperm.subperm.trans hP'sub
      have hothers : ∀ fid', fid' ≠ fb.1 →
          (st.slots.eraseP (fun sl => sl.frameId == fb.1)).filter
              (fun sl => sl.frameId == fid') =
            st.slots.filter (fun sl => sl.frameId == fid') := by
        intro fid' h
        refine filter_eraseP_disjoint ?_
        intro x hx
        have : x.frameId = fb.1 := by simpa using hx
        simp [this, Ne.symm h]
      by_cases hcomp : complete (cs ++ [c]) = true
      · -- the chunk completes the frame: emit it
        rw [processChunk_found_complete hfind (by rw [hslch]; exact hcomp)]
        rw [hpredeq, hslfid, hslch]
        have hfullperm : (cs ++ [c]).Perm (chunksOf fb.1 m1 fb.2) :=
          complete_subperm_perm hnewsub hcomp
        have hasm : assembleBytes (cs ++ [c]) = fb.2 := assembleBytes_correct hfullperm
        rw [hasm]
        have hlenfull : (gotOf (P ++ [c]) fb.1).length = (chunksOf fb.1 m1 fb.2).length := by
          rw [← hnewperm.length_eq, hfullperm.length_eq]
        refine Inv_intro _ _ _ _ _ ?_ ?_ ?_ ?_ ?_
        · intro fb' hfb'
          by_cases hfb'eq : fb' = fb
          · subst hfb'eq
            refine ⟨?_, ?_, ?_⟩
            · intro h0
              exfalso
              omega
            · intro _ hlt
              exfalso
              omega
            · intro _
              exact filter_eraseP_self hfilter
          · have hfid' : fb'.1 ≠ fb.1 := fun he => hfb'eq (huniq fb' hfb' he)
            rw [hgotother fb'.1 hfid', hothers fb'.1 hfid']
            exact inv1 fb' hfb'
        · intro sl' hmem'
          exact inv2 sl' ((List.eraseP_sublist _).subset hmem')
        · intro fb' hfb'
          rw [List.count_append]
          by_cases hfb'eq : fb' = fb
          · subst hfb'eq
            have h0 := inv3 fb' hfb'
            rw [if_neg (by omega)] at h0
            rw [h0, if_pos hlenfull]
            simp
          · have hfid' : fb'.1 ≠ fb.1 := fun he => hfb'eq (huniq fb' hfb' he)
            have hcnt0 : List.count (fb'.1, fb'.2) [(fb.1, fb.2)] = 0 := by
              rw [List.count_eq_zero]
              intro hc
              have hpair : (fb'.1, fb'.2) = (fb.1, fb.2) := by simpa using hc
              exact hfid' (congrArg Prod.fst hpair)
            rw [hcnt0, hgotother fb'.1 hfid']
            have := inv3 fb' hfb'
            omega
        · intro x hx
          rcases List.mem_append.mp hx with h1 | h1
          · exact inv4 x h1
          · have : x = (fb.1, fb.2) := by simpa using h1
            rw [this, Prod.mk.eta]
            exact hfbmem
        · have hlenerase :
              (st.slots.eraseP (fun sl => sl.frameId == fb.1)).length =
                st.slots.length - 1 :=
            List.length_eraseP_of_mem hslmem (by simp [hslfid])
          have hpa : partialIn m1 P fb = true := by
            simp only [partialIn, decide_eq_true_eq]
            exact hpartial
          have hqa : partialIn m1 (P ++ [c]) fb = false := by
            simp only [partialIn, decide_eq_false_iff_not]
            intro hcon
            omega
          have hsame : ∀ x ∈ frames, x ≠ fb →
              partialIn m1 (P ++ [c]) x = partialIn m1 P x := by
            intro x hx hne
            have hxfid : x.1 ≠ fb.1 := fun he => hne (huniq x hx he)
            simp only [partialIn, hgotother x.1 hxfid]
          have hshift := filter_length_shift_down hframesnd hfbmem hsame hpa hqa
          have hpos : 0 < st.slots.length :=
            List.length_pos.mpr (List.ne_nil_of_mem hslmem)
          omega
      · -- the frame stays partial: slot moves to the most-recent end
        have hcompf : complete (cs ++ [c]) = false := by
          cases h : complete (cs ++ [c]) with
          | false => rfl
          | true => exact absurd h hcomp
        rw [processChunk_found_incomplete hfind (by rw [hslch]; exact hcompf)]
        rw [hpredeq, hslfid, hslch]
        have hnotfull :
            (gotOf (P ++ [c]) fb.1).length ≠ (chunksOf fb.1 m1 fb.2).length := by
          intro he
          have hperm2 : (gotOf (P ++ [c]) fb.1).Perm (chunksOf fb.1 m1 fb.2) :=
            subperm_perm_of_length hP'sub (by omega)
          have : complete (cs ++ [c]) = true := by
            rw [complete_perm (hnewperm.trans hperm2)]
            exact chunksOf_complete fb.1 m1 fb.2
          exact hcomp this
        have hlt' : (gotOf (P ++ [c]) fb.1).length < (chunksOf fb.1 m1 fb.2).length := by
          have := hP'sub.length_le
          omega
        refine Inv_intro _ _ _ _ _ ?_ ?_ ?_ ?_ ?_
        · intro fb' hfb'
          by_cases hfb'eq : fb' = fb
          · subst hfb'eq
            refine ⟨?_, ?_, ?_⟩
            · intro h0
              exfalso
              omega
            · intro _ _
              refine ⟨cs ++ [c], ?_, hnewperm⟩
              rw [List.filter_append, filter_eraseP_self hfilter]
              simp
            · intro hfull
              exact absurd hfull hnotfull
          · have hfid' : fb'.1 ≠ fb.1 := fun he => hfb'eq (huniq fb' hfb' he)
            rw [hgotother fb'.1 hfid']
            have hfil2 :
                ((st.slots.eraseP (fun sl : Slot => sl.frameId == fb.1) ++
                    ([⟨fb.1, cs ++ [c]⟩] : List Slot)).filter
                    (fun sl : Slot => sl.frameId == fb'.1)) =
                  st.slots.filter (fun sl : Slot => sl.frameId == fb'.1) := by
              rw [List.filter_append, hothers fb'.1 hfid']
              have hbeqf : ((⟨fb.1, cs ++ [c]⟩ : Slot).frameId == fb'.1) = false := by
                simp [Ne.symm hfid']
              simp [List.filter_cons, hbeqf]
            rw [hfil2]
            exact inv1 fb' hfb'
        · intro sl' hmem'
          rcases List.mem_append.mp hmem' with h1 | h1
          · exact inv2 sl' ((List.eraseP_sublist _).subset h1)
          · have : sl' = ⟨fb.1, cs ++ [c]⟩ := by simpa using h1
            rw [this]
            exact List.mem_map.mpr ⟨fb, hfbmem, rfl⟩
        · intro fb' hfb'
          by_cases hfb'eq : fb' = fb
          · subst hfb'eq
            rw [if_neg hnotfull]
            have h0 := inv3 fb' hfb'
            rw [if_neg (by omega)] at h0
            exact h0
          · have hfid' : fb'.1 ≠ fb.1 := fun he => hfb'eq (huniq fb' hfb' he)
            rw [hgotother fb'.1 hfid']
            exact inv3 fb' hfb'
        · exact inv4
        · have hlenerase :
              (st.slots.eraseP (fun sl => sl.frameId == fb.1)).length =
                st.slots.length - 1 :=
            List.length_eraseP_of_mem hslmem (by simp [hslfid])
          have hsame : ∀ x ∈ frames,
              partialIn m1 (P ++ [c]) x = partialIn m1 P x := by
            intro x hx
            by_cases hne : x = fb
            · subst hne
              have h1 : partialIn m1 P x = true := by
                simp only [partialIn, decide_eq_true_eq]
                exact hpartial
              have h2 : partialIn m1 (P ++ [c]) x = true := by
                simp only [partialIn, decide_eq_true_eq]
                omega
              rw [h1, h2]
            · have hxfid : x.1 ≠ fb.1 := fun he => hne (huniq x hx he)
              simp only [partialIn, hgotother x.1 hxfid]
          have hcongr : frames.filter (partialIn m1 (P ++ [c])) =
              frames.filter (partialIn m1 P) :=
            List.filter_congr hsame
          have hpos : 0 < st.slots.length :=
            List.length_pos.mpr (List.ne_nil_of_mem hslmem)
          rw [hcongr]
          simp only [List.length_append, List.length_cons, List.length_nil]
          omega
  | none =>
      have hnoslot : st.slots.filter (fun sl => sl.frameId == fb.1) = [] := by
        rw [List.filter_eq_nil_iff]
        intro sl' hsl'
        have h1 := List.find?_eq_none.mp hfind sl' hsl'
        rw [hcfid] at h1
        simpa using h1
      obtain ⟨c1, c2, c3⟩ := inv1 fb hfbmem
      have hgot0 : (gotOf P fb.1).length = 0 := by
        by_cases h0 : (gotOf P fb.1).length = 0
        · exact h0
        exfalso
        by_cases hfull : (gotOf P fb.1).length = (chunksOf fb.1 m1 fb.2).length
        · have hlen2 := hP'sub.length_le
          omega
        · have hlep := hPsub.length_le
          obtain ⟨cs, hfilter, _⟩ := c2 (by omega) (by omega)
          rw [hnoslot] at hfilter
          cases hfilter
      have hgotnil : gotOf P fb.1 = [] := List.length_eq_zero.mp hgot0
      have hgot'c : gotOf (P ++ [c]) fb.1 = [c] := by
        rw [hgot', hgotnil]
        rfl
      have hc1sub : ([c] : List Chunk).Subperm (chunksOf fb.1 m1 fb.2) := by
        rw [← hgot'c]
        exact hP'sub
      by_cases hcomp : complete ([c] : List Chunk) = true
      · -- single-chunk frame: emitted immediately
        rw [processChunk_new_complete hfind hlen hcomp]
        have hfullperm : ([c] : List Chunk).Perm (chunksOf fb.1 m1 fb.2) :=
          complete_subperm_perm hc1sub hcomp
        have hasm : assembleBytes [c] = fb.2 := assembleBytes_correct hfullperm
        have hCFlen1 : (chunksOf fb.1 m1 fb.2).length = 1 := by
          have h9 := hfullperm.length_eq
          simp only [List.length_singleton] at h9
          omega
        have hlenfull :
            (gotOf (P ++ [c]) fb.1).length = (chunksOf fb.1 m1 fb.2).length := by
          rw [hgot'c, hCFlen1]
          rfl
        rw [hcfid, hasm]
        refine Inv_intro _ _ _ _ _ ?_ ?_ ?_ ?_ ?_
        · intro fb' hfb'
          by_cases hfb'eq : fb' = fb
          · subst hfb'eq
            refine ⟨?_, ?_, ?_⟩
            · intro h0
              exfalso
              omega
            · intro _ hlt
              exfalso
              omega
            · intro _
              exact hnoslot
          · have hfid' : fb'.1 ≠ fb.1 := fun he => hfb'eq (huniq fb' hfb' he)
            rw [hgotother fb'.1 hfid']
            exact inv1 fb' hfb'
        · exact inv2
        · intro fb' hfb'
          rw [List.count_append]
          by_cases hfb'eq : fb' = fb
          · subst hfb'eq
            have h0 := inv3 fb' hfb'
            rw [if_neg (by omega)] at h0
            rw [h0, if_pos hlenfull]
            simp
          · have hfid' : fb'.1 ≠ fb.1 := fun he => hfb'eq (huniq fb' hfb' he)
            have hcnt0 : List.count (fb'.1, fb'.2) [(fb.1, fb.2)] = 0 := by
              rw [List.count_eq_zero]
              intro hc
              have hpair : (fb'.1, fb'.2) = (fb.1, fb.2) := by simpa using hc
              exact hfid' (congrArg Prod.fst hpair)
            rw [hcnt0, hgotother fb'.1 hfid']
            have := inv3 fb' hfb'
            omega
        · intro x hx
          rcases List.mem_append.mp hx with h1 | h1
          · exact inv4 x h1
          · have : x = (fb.1, fb.2) := by simpa using h1
            rw [this, Prod.mk.eta]
            exact hfbmem
        · have hsame : ∀ x ∈ frames,
              partialIn m1 (P ++ [c]) x = partialIn m1 P x := by
            intro x hx
            by_cases hne : x = fb
            · subst hne
              have h1 : partialIn m1 P x = false := by
                simp only [partialIn, decide_eq_false_iff_not]
                intro hcon
                omega
              have h2 : partialIn m1 (P ++ [c]) x = false := by
                simp only [partialIn, decide_eq_false_iff_not]
                intro hcon
                omega
              rw [h1, h2]
            · have hxfid : x.1 ≠ fb.1 := fun he => hne (huniq x hx he)
              simp only [partialIn, hgotother x.1 hxfid]
          rw [List.filter_congr hsame]
          exact inv5
      · -- first chunk of a longer frame: allocate a slot
        have hcompf : complete ([c] : List Chunk) = false := by
          cases h : complete ([c] : List Chunk) with
          | false => rfl
          | true => exact absurd h hcomp
        rw [processChunk_new_incomplete hfind hlen hcompf]
        have hnotfull :
            (gotOf (P ++ [c]) fb.1).length ≠ (chunksOf fb.1 m1 fb.2).length := by
          intro he
          have hperm2 : (gotOf (P ++ [c]) fb.1).Perm (chunksOf fb.1 m1 fb.2) :=
            subperm_perm_of_length hP'sub (by omega)
          rw [hgot'c] at hperm2
          have : complete ([c] : List Chunk) = true := by
            rw [complete_perm hperm2]
            exact chunksOf_complete fb.1 m1 fb.2
          exact hcomp this
        have hlt' : (gotOf (P ++ [c]) fb.1).length < (chunksOf fb.1 m1 fb.2).length := by
          have := hP'sub.length_le
          omega
        refine Inv_intro _ _ _ _ _ ?_ ?_ ?_ ?_ ?_
        · intro fb' hfb'
          by_cases hfb'eq : fb' = fb
          · subst hfb'eq
            refine ⟨?_, ?_, ?_⟩
            · intro h0
              exfalso
              omega
            · intro _ _
              refine ⟨[c], ?_, by rw [hgot'c]⟩
              rw [List.filter_append, hnoslot]
              have hbeqt : ((⟨c.frameId, [c]⟩ : Slot).frameId == fb'.1) = true := by
                simp [hcfid]
              simp [List.filter_cons, hbeqt, hcfid]
            · intro hfull
              exact absurd hfull hnotfull
          · have hfid' : fb'.1 ≠ fb.1 := fun he => hfb'eq (huniq fb' hfb' he)
            rw [hgotother fb'.1 hfid']
            have hfil2 :
                ((st.slots ++ ([⟨c.frameId, [c]⟩] : List Slot)).filter
                    (fun sl : Slot => sl.frameId == fb'.1)) =
                  st.slots.filter (fun sl : Slot => sl.frameId == fb'.1) := by
              rw [List.filter_append]
              have hbeqf : ((⟨c.frameId, [c]⟩ : Slot).frameId == fb'.1) = false := by
                simp [hcfid, Ne.symm hfid']
              simp [List.filter_cons, hbeqf]
            rw [hfil2]
            exact inv1 fb' hfb'
        · intro sl' hmem'
          rcases List.mem_append.mp hmem' with h1 | h1
          · exact inv2 sl' h1
          · have : sl' = ⟨c.frameId, [c]⟩ := by simpa using h1
            rw [this]
            have : (⟨c.frameId, [c]⟩ : Slot).frameId = fb.1 := hcfid
            rw [this]
            exact List.mem_map.mpr ⟨fb, hfbmem, rfl⟩
        · intro fb' hfb'
          by_cases hfb'eq : fb' = fb
          · subst hfb'eq
            rw [if_neg hnotfull]
            have h0 := inv3 fb' hfb'
            rw [if_neg (by omega)] at h0
            exact h0
          · have hfid' : fb'.1 ≠ fb.1 := fun he => hfb'eq (huniq fb' hfb' he)
            rw [hgotother fb'.1 hfid']
            exact inv3 fb' hfb'
        · exact inv4
        · have hpa : partialIn m1 P fb = false := by
            simp only [partialIn, decide_eq_false_iff_not]
            intro hcon
            omega
          have hqa : partialIn m1 (P ++ [c]) fb = true := by
            simp only [partialIn, decide_eq_true_eq]
            constructor
            · omega
            · exact hlt'
          have hsame : ∀ x ∈ frames, x ≠ fb →
              partialIn m1 (P ++ [c]) x = partialIn m1 P x := by
            intro x hx hne
            have hxfid : x.1 ≠ fb.1 := fun he => hne (huniq x hx he)
            simp only [partialIn, hgotother x.1 hxfid]
          have hshift := filter_length_shift_up hframesnd hfbmem hsame hpa hqa
          simp only [List.length_append, List.length_cons, List.length_nil]
          omega

end FPA

namespace FPA

/-- The BEq instance derived from decidable equality is lawful. -/
theorem lawfulBEq_ofDecidableEq {α : Type} [DecidableEq α] :
    @LawfulBEq α instBEqOfDecidableEq :=
  ⟨fun h => of_decide_eq_true h, by intro a; exact decide_eq_true rfl⟩

/-- Folding the assembler over the rest of a delivered sequence keeps the
invariant, provided every prefix leaves fewer partial frames than slots. -/
theorem Inv_run {m1 cap : Nat} {frames : List (Nat × List Nat)}
    (hnd : (frames.map Prod.fst).Nodup)
    {d : List Chunk}
    (hdperm : d.Perm (disassemblerStream m1 frames))
    (hbound : ∀ n : Nat, (frames.filter (partialIn m1 (d.take n))).length < cap) :
    ∀ (rest P : List Chunk) (st : AsmState), d = P ++ rest →
      Inv m1 frames st P →
      Inv m1 frames (rest.foldl (processChunk cap) st) d := by
  intro rest
  induction rest with
  | nil =>
      intro P st hPd hInv
      rw [List.foldl_nil]
      rw [List.append_nil] at hPd
      rw [hPd]
      exact hInv
  | cons c rest ih =>
      intro P st hPd hInv
      rw [List.foldl_cons]
      have hsub : (P ++ [c]).Subperm (disassemblerStream m1 frames) := by
        have hsl : (P ++ [c]).Sublist d := by
          rw [hPd]
          refine List.Sublist.append_left ?_ P
          exact List.cons_sublist_cons.mpr (List.nil_sublist rest)
        exact hsl.subperm.trans hdperm.subperm
      have hslots : st.slots.length < cap := by
        have h1 := hbound P.length
        have htake : d.take P.length = P := by
          rw [hPd]
          exact List.take_left P (c :: rest)
        rw [htake] at h1
        obtain ⟨_, _, _, _, inv5⟩ := hInv
        omega
      have hstep := Inv_processChunk hnd hInv hsub hslots
      refine ih (P ++ [c]) _ ?_ hstep
      rw [hPd]
      simp

/-- C6: for a FragmentProto assembler with `num_frames` reassembly slots,
any delivery of the disassembler-produced chunk streams whose out-of-order
interleaving degree is at most `num_frames − 2` makes the assembler emit
every frame exactly once, byte-identical to the frame that was disassembled
(the emitted list is a permutation of the original frames). -/
theorem C6_assembler_reassembles {m1 cap D : Nat}
    {frames : List (Nat × List Nat)} {d : List Chunk}
    (hnd : (frames.map Prod.fst).Nodup)
    (hsort : BufSort D d [] (disassemblerStream m1 frames))
    (hcap : D + 2 ≤ cap) :
    (runAssembler cap d).emitted.Perm frames := by
  have hframesnd : frames.Nodup := hnd.of_map
  have hdperm : d.Perm (disassemblerStream m1 frames) := by
    have h1 := bufSort_perm hsort
    simpa using h1
  have hbound : ∀ n, (frames.filter (partialIn m1 (d.take n))).length < cap := by
    intro n
    obtain ⟨P0, B', su, h1, h2, h3⟩ := bufSort_prefix hsort (by simp) n
    rw [List.nil_append] at h1
    have hTsub : (d.take n).Subperm (disassemblerStream m1 frames) :=
      (List.take_sublist n d).subperm.trans hdperm.subperm
    have hcount := partial_count_bound hnd hTsub h1.symm h3
    omega
  have hInv0 : Inv m1 frames ⟨[], []⟩ [] := by
    refine Inv_intro _ _ _ _ _ ?_ ?_ ?_ ?_ ?_
    · intro fb _
      refine ⟨fun _ => rfl, ?_, fun _ => rfl⟩
      intro h0 _
      exfalso
      simp [gotOf] at h0
    · intro sl h
      cases h
    · intro fb _
      have hCFpos := chunksOf_length_pos fb.1 m1 fb.2
      have hno : ¬((gotOf ([] : List Chunk) fb.1).length =
          (chunksOf fb.1 m1 fb.2).length) := by
        simp only [gotOf, List.filter_nil, List.length_nil]
        omega
      rw [if_neg hno]
      rfl
    · intro x h
      cases h
    · have hfl : frames.filter (partialIn m1 []) = [] := by
        rw [List.filter_eq_nil_iff]
        intro fb _
        simp [partialIn, gotOf]
      rw [hfl]
      rfl
  have hrun := Inv_run hnd hdperm hbound d [] ⟨[], []⟩ (by simp) hInv0
  obtain ⟨inv1, inv2, inv3, inv4, inv5⟩ := hrun
  have hfull : ∀ fb ∈ frames,
      (gotOf d fb.1).length = (chunksOf fb.1 m1 fb.2).length := by
    intro fb hfb
    have h1 := (gotOf_perm hdperm fb.1).length_eq
    rwa [gotOf_stream_mem hnd (by rw [Prod.mk.eta]; exact hfb)] at h1
  have hb : ∀ (l : List (Nat × List Nat)) (a : Nat × List Nat),
      @List.count _ instBEqProd a l = @List.count _ instBEqOfDecidableEq a l := by
    intro l a
    refine List.countP_congr ?_
    intro x _
    exact Iff.trans (@beq_iff_eq _ instBEqProd inferInstance x a)
      (@beq_iff_eq _ instBEqOfDecidableEq lawfulBEq_ofDecidableEq x a).symm
  rw [List.perm_iff_count]
  intro x
  by_cases hx : x ∈ frames
  · have h1 := inv3 x hx
    rw [if_pos (hfull x hx)] at h1
    rw [Prod.mk.eta] at h1
    have h2 : @List.count _ instBEqOfDecidableEq x frames = 1 :=
      List.count_eq_one_of_mem hframesnd hx
    exact ((hb _ x).symm.trans h1).trans h2.symm
  · have h0 : (d.foldl (processChunk cap) ⟨[], []⟩).emitted.count x = 0 := by
      rw [List.count_eq_zero]
      intro hc
      exact hx (inv4 x hc)
    have h2 : @List.count _ instBEqOfDecidableEq x frames = 0 :=
      (@List.count_eq_zero _ instBEqOfDecidableEq lawfulBEq_ofDecidableEq x frames).mpr hx
    exact ((hb _ x).symm.trans h0).trans h2.symm

end FPA

namespace FPA

/-- Witness for C6: two frames (id 1 of 3 bytes, id 2 of 1 byte), chunk
payload size 2 (`m1 = 1`), num_frames = 3 slots, delivered with out-of-order
degree 1 (frame 2's chunk arrives between frame 1's two chunks); the
assembler emits both frames, byte-identical. -/
theorem C6_assembler_reassembles_witness :
    (runAssembler 3
      [⟨1, 0, [10, 11], false⟩, ⟨2, 0, [20], true⟩, ⟨1, 2, [12], true⟩]).emitted.Perm
      [(1, [10, 11, 12]), (2, [20])] := by
  have hS : disassemblerStream 1 [(1, [10, 11, 12]), (2, [20])] =
      [⟨1, 0, [10, 11], false⟩, ⟨1, 2, [12], true⟩, ⟨2, 0, [20], true⟩] := by
    simp only [disassemblerStream, List.map_cons, List.map_nil, chunksOf]
    rw [chunksOfAux_big (by simp), chunksOfAux_small (by simp),
      chunksOfAux_small (by simp)]
    simp
  have hder : BufSort 1
      [⟨1, 0, [10, 11], false⟩, ⟨2, 0, [20], true⟩, ⟨1, 2, [12], true⟩] []
      [⟨1, 0, [10, 11], false⟩, ⟨1, 2, [12], true⟩, ⟨2, 0, [20], true⟩] := by
    refine BufSort.emitIn _ ?_
    refine BufSort.read _ (by simp) ?_
    refine BufSort.emitIn _ ?_
    refine BufSort.emitBuf _ (by simp) ?_
    exact BufSort.done
  exact @C6_assembler_reassembles 1 3 1 [(1, [10, 11, 12]), (2, [20])]
    [⟨1, 0, [10, 11], false⟩, ⟨2, 0, [20], true⟩, ⟨1, 2, [12], true⟩]
    (by decide) (hS ▸ hder) (by omega)

end FPA
